import Mathlib

/-!
Verification of the RAG (retrieval-augmented generation) core of this
repository: the chunker (`src/lib/parse.ts`), the embedder
(`src/lib/embeddings.ts`), the FAISS-backed vector store
(`indexSources` / `queryIndex` / load / save in the library module bundled
with `src/app/projects/ProjectsBoard.tsx`), and the deterministic fallback
store (`src/unnamed/part_001`).

JavaScript strings are modelled as Lean `String` / `List Char`; JavaScript
numbers used for vector arithmetic are modelled as real numbers (`ℝ`),
abstracting IEEE-754 rounding; counters and array indices are `Nat`.
External effects (file system, network, SHA-256 / SHA-512 digests,
`crypto.randomUUID`, the FAISS native library) are modelled as explicit
parameters or oracle functions, so every operation is a pure function of
its inputs.
-/

namespace Wled

/-! ## JavaScript string primitives

`text.split(/\s+/)`, `.trim()`, `.toLowerCase()`, `.includes(...)` and
`.join(' ')` are re-implemented here over `List Char` with JavaScript
semantics (in particular `split(/\s+/)` keeps an empty token at each end
of the string when the string starts/ends with whitespace, and splitting
the empty string yields `[""]`). -/

/-- Maximal runs of non-whitespace characters, accumulator-based so that the
kernel can evaluate it. `wordsAux cs acc` scans `cs` with `acc` holding the
reversed current word. -/
def wordsAux : List Char → List Char → List (List Char)
  | [], acc => if acc = [] then [] else [acc.reverse]
  | c :: rest, acc =>
    if c.isWhitespace then
      if acc = [] then wordsAux rest [] else acc.reverse :: wordsAux rest []
    else wordsAux rest (c :: acc)

/-- The maximal non-whitespace runs (the "words") of a character list. -/
def wordsOf (cs : List Char) : List (List Char) := wordsAux cs []

/-- JavaScript `text.split(/\s+/)` on a character list: the words of the
string, plus an empty token at the front when the string starts with
whitespace and an empty token at the back when it ends with whitespace;
the empty string splits to `[[]]`. -/
def splitWs (cs : List Char) : List (List Char) :=
  match cs with
  | [] => [[]]
  | c :: rest =>
    (if c.isWhitespace then [([] : List Char)] else []) ++
      wordsOf (c :: rest) ++
      (if (List.getLastD (c :: rest) c).isWhitespace then [([] : List Char)] else [])

/-- JavaScript `array.join(' ')`. -/
def joinSpace : List (List Char) → List Char
  | [] => []
  | [w] => w
  | w :: w2 :: ws => w ++ ' ' :: joinSpace (w2 :: ws)

/-- JavaScript `s.trim()`: drop whitespace from both ends. -/
def trimChars (cs : List Char) : List Char :=
  ((cs.dropWhile Char.isWhitespace).reverse.dropWhile Char.isWhitespace).reverse

/-- JavaScript `s.trim()` on `String`. -/
def jsTrim (s : String) : String := String.mk (trimChars s.toList)

/-- JavaScript `s.toLowerCase()` (character-wise). -/
def jsToLower (s : String) : String := String.mk (s.toList.map Char.toLower)

/-- Does `needle` occur at the head of `hay`? -/
def startsWithList : List Char → List Char → Bool
  | _, [] => true
  | [], _ :: _ => false
  | a :: as, b :: bs => a = b && startsWithList as bs

/-- Does `needle` occur as a contiguous sublist of `hay`?
Models JavaScript `hay.includes(needle)`. -/
def containsList : List Char → List Char → Bool
  | hay, needle =>
    startsWithList hay needle ||
      match hay with
      | [] => false
      | _ :: t => containsList t needle

/-- JavaScript `s.includes(sub)` on `String`. -/
def jsIncludes (s sub : String) : Bool := containsList s.toList sub.toList

/-! ## Chunker (`src/lib/parse.ts`)

```
const CHUNK_SIZE = 1000;
const CHUNK_OVERLAP = 200;
function chunkText(text: string): string[] {
  const tokens = text.split(/\s+/);
  const chunks: string[] = [];
  for (let i = 0; i < tokens.length; i += CHUNK_SIZE - CHUNK_OVERLAP) {
    const slice = tokens.slice(i, i + CHUNK_SIZE).join(' ');
    if (slice.trim()) { chunks.push(slice.trim()); }
  }
  return chunks;
}
```
-/

def CHUNK_SIZE : Nat := 1000

def CHUNK_OVERLAP : Nat := 200

/-- The `for` loop of `chunkText`: one fuel unit per iteration; the fuel is
instantiated to `tokens.length`, which bounds the number of iterations since
the loop index grows by `CHUNK_SIZE - CHUNK_OVERLAP = 800 ≥ 1` each round. -/
def chunkLoop (tokens : List (List Char)) : Nat → Nat → List (List Char)
  | _, 0 => []
  | i, fuel + 1 =>
    if i < tokens.length then
      let slice := joinSpace ((tokens.drop i).take CHUNK_SIZE)
      let rest := chunkLoop tokens (i + (CHUNK_SIZE - CHUNK_OVERLAP)) fuel
      if trimChars slice = [] then rest else trimChars slice :: rest
    else []

/-- The function `chunkText` from `src/lib/parse.ts`. -/
def chunkText (text : String) : List String :=
  ((chunkLoop (splitWs text.toList) 0 (splitWs text.toList).length).map
    fun cs => String.mk cs)

/-! ### Chunker lemmas -/

theorem wordsAux_allws (cs : List Char) (acc : List Char)
    (hcs : ∀ c ∈ cs, c.isWhitespace = true) :
    wordsAux cs acc = if acc = [] then [] else [acc.reverse] := by
  induction cs generalizing acc with
  | nil => rw [wordsAux]
  | cons c rest ih =>
    have hc : c.isWhitespace = true := hcs c (List.mem_cons_self ..)
    have hrest : ∀ d ∈ rest, d.isWhitespace = true :=
      fun d hd => hcs d (List.mem_cons_of_mem _ hd)
    rw [wordsAux, hc]
    simp only [if_true]
    rw [ih [] hrest]
    by_cases ha : acc = [] <;> simp [ha]

theorem wordsOf_allws (cs : List Char) (hcs : ∀ c ∈ cs, c.isWhitespace = true) :
    wordsOf cs = [] := by
  rw [wordsOf, wordsAux_allws cs [] hcs]
  simp

theorem exists_mem_wordsAux (cs : List Char) (acc : List Char) (c : Char)
    (hc : c.isWhitespace = false) (hmem : c ∈ cs ∨ c ∈ acc) :
    ∃ w ∈ wordsAux cs acc, c ∈ w := by
  induction cs generalizing acc with
  | nil =>
    rcases hmem with h | h
    · simp at h
    · have hne : acc ≠ [] := by rintro rfl; simp at h
      rw [wordsAux]
      exact ⟨acc.reverse, by simp [hne], by simpa using h⟩
  | cons d rest ih =>
    rw [wordsAux]
    by_cases hd : d.isWhitespace = true
    · rw [hd]
      simp only [if_true]
      rcases hmem with h | h
      · have hcrest : c ∈ rest := by
          rcases List.mem_cons.mp h with rfl | h2
          · rw [hd] at hc; exact absurd hc (by simp)
          · exact h2
        rcases ih [] (Or.inl hcrest) with ⟨w, hw, hcw⟩
        by_cases ha : acc = []
        · exact ⟨w, by simpa [ha] using hw, hcw⟩
        · exact ⟨w, by simp only [ha, if_false]; exact List.mem_cons_of_mem _ hw, hcw⟩
      · have ha : acc ≠ [] := by rintro rfl; simp at h
        simp only [ha, if_false]
        exact ⟨acc.reverse, List.mem_cons_self .., by simpa using h⟩
    · have hd' : d.isWhitespace = false := by
        cases h : d.isWhitespace
        · rfl
        · exact absurd h hd
      rw [hd']
      simp only [Bool.false_eq_true, if_false]
      apply ih
      rcases hmem with h | h
      · rcases List.mem_cons.mp h with rfl | h
        · exact Or.inr (List.mem_cons_self ..)
        · exact Or.inl h
      · exact Or.inr (List.mem_cons_of_mem _ h)

theorem exists_mem_wordsOf (cs : List Char) (c : Char)
    (hc : c.isWhitespace = false) (hmem : c ∈ cs) :
    ∃ w ∈ wordsOf cs, c ∈ w :=
  exists_mem_wordsAux cs [] c hc (Or.inl hmem)

theorem splitWs_ne_nil (cs : List Char) : splitWs cs ≠ [] := by
  match cs with
  | [] => simp [splitWs]
  | c :: rest =>
    by_cases hc : c.isWhitespace = true
    · simp [splitWs, hc]
    · have hc' : c.isWhitespace = false := by
        cases h : c.isWhitespace
        · rfl
        · exact absurd h hc
      rcases exists_mem_wordsOf (c :: rest) c hc' (List.mem_cons_self ..) with ⟨w, hw, _⟩
      have hwn : wordsOf (c :: rest) ≠ [] := by rintro h; rw [h] at hw; simp at hw
      intro h
      rw [splitWs] at h
      exact absurd (List.append_eq_nil.mp ((List.append_eq_nil.mp h).1)).2 hwn

theorem mem_joinSpace (ws : List (List Char)) (w : List Char) (c : Char)
    (hw : w ∈ ws) (hc : c ∈ w) : c ∈ joinSpace ws := by
  induction ws with
  | nil => simp at hw
  | cons v vs ih =>
    rcases List.mem_cons.mp hw with rfl | hw
    · match vs with
      | [] => simpa [joinSpace] using hc
      | v2 :: vs2 => rw [joinSpace]; exact List.mem_append.mpr (Or.inl hc)
    · match vs with
      | [] => simp at hw
      | v2 :: vs2 =>
        rw [joinSpace]
        refine List.mem_append.mpr (Or.inr ?_)
        exact List.mem_cons_of_mem _ (ih hw)

theorem trimChars_eq_nil_iff (cs : List Char) :
    trimChars cs = [] ↔ ∀ c ∈ cs, c.isWhitespace = true := by
  rw [trimChars, List.reverse_eq_nil_iff, List.dropWhile_eq_nil_iff]
  constructor
  · intro h c hc
    rcases List.mem_append.mp (by rw [List.takeWhile_append_dropWhile (p := Char.isWhitespace) (l := cs)]; exact hc :
        c ∈ cs.takeWhile Char.isWhitespace ++ cs.dropWhile Char.isWhitespace) with h1 | h1
    · exact List.mem_takeWhile_imp h1
    · exact h c (List.mem_reverse.mpr h1)
  · intro h c hc
    exact h c ((List.dropWhile_sublist _).mem (List.mem_reverse.mp hc))

theorem chunkLoop_of_le (tokens : List (List Char)) (i : Nat) (fuel : Nat)
    (h : tokens.length ≤ i) : chunkLoop tokens i fuel = [] := by
  match fuel with
  | 0 => rw [chunkLoop]
  | fuel + 1 =>
    rw [chunkLoop]
    simp only [if_neg (by omega : ¬ i < tokens.length)]

theorem list_getLastD_mem (c : Char) (rest : List Char) :
    List.getLastD (c :: rest) c ∈ c :: rest := by
  induction rest generalizing c with
  | nil => simp
  | cons d rest ih =>
    rw [List.getLastD_cons]
    exact List.mem_cons_of_mem _ (ih d)

/-! ### C6 -/

/-- C6 (amended): a text whose whitespace-split token array has at most
`CHUNK_SIZE - CHUNK_OVERLAP = 800` entries and contains at least one
non-whitespace character is chunked by `chunkText` into exactly one chunk,
and a text with zero non-whitespace characters yields zero chunks. (The
claim's bound of `CHUNK_SIZE = 1000` tokens is refuted by
`chunkText_two_chunks_below_chunk_size`: the loop advances by 800, so token
arrays of 801 to 1000 entries produce two chunks.) -/
theorem chunkText_small_doc :
    (∀ text : String,
      (splitWs text.toList).length ≤ CHUNK_SIZE - CHUNK_OVERLAP →
      (∃ c ∈ text.toList, c.isWhitespace = false) →
      (chunkText text).length = 1)
    ∧ (∀ text : String, (∀ c ∈ text.toList, c.isWhitespace = true) →
      chunkText text = []) := by
  constructor
  · intro text hlen hex
    rcases hex with ⟨c, hcmem, hcw⟩
    have hne : splitWs text.toList ≠ [] := splitWs_ne_nil text.toList
    have hpos : 0 < (splitWs text.toList).length := List.length_pos.mpr hne
    obtain ⟨m, hm⟩ : ∃ m, (splitWs text.toList).length = m + 1 :=
      ⟨(splitWs text.toList).length - 1, by omega⟩
    have hstride : CHUNK_SIZE - CHUNK_OVERLAP = 800 := by
      norm_num [CHUNK_SIZE, CHUNK_OVERLAP]
    have htake : ((splitWs text.toList).drop 0).take CHUNK_SIZE = splitWs text.toList := by
      rw [List.drop_zero]
      exact List.take_of_length_le (by rw [CHUNK_SIZE]; omega)
    have htrim : trimChars (joinSpace (splitWs text.toList)) ≠ [] := by
      intro htr
      rcases exists_mem_wordsOf text.toList c hcw hcmem with ⟨w, hwmem, hcwmem⟩
      have hwtok : w ∈ splitWs text.toList := by
        cases hcs : text.toList with
        | nil => rw [hcs] at hcmem; simp at hcmem
        | cons c0 rest =>
          rw [hcs] at hwmem
          rw [splitWs]
          exact List.mem_append.mpr (Or.inl (List.mem_append.mpr (Or.inr hwmem)))
      have hcj := mem_joinSpace (splitWs text.toList) w c hwtok hcwmem
      have := (trimChars_eq_nil_iff _).mp htr c hcj
      rw [hcw] at this
      simp at this
    rw [chunkText, hm, chunkLoop]
    simp only [if_pos (show 0 < (splitWs text.toList).length from hpos)]
    rw [htake]
    simp only [if_neg htrim]
    rw [chunkLoop_of_le _ _ _ (by omega)]
    simp
  · intro text hall
    cases hcs : text.toList with
    | nil =>
      rw [chunkText, hcs]
      decide
    | cons c0 rest =>
      rw [hcs] at hall
      have hc0 : c0.isWhitespace = true := hall c0 (List.mem_cons_self ..)
      have hlast : (List.getLastD (c0 :: rest) c0).isWhitespace = true :=
        hall _ (list_getLastD_mem c0 rest)
      have htokens : splitWs (c0 :: rest) = [[], []] := by
        rw [splitWs, wordsOf_allws _ hall, hc0, hlast]
        simp
      rw [chunkText, hcs, htokens]
      decide

/-- C6 witness: `"hello"` (one token, non-whitespace) yields one chunk and
`"  "` (all whitespace) yields none. -/
theorem chunkText_small_doc_witness :
    ((splitWs "hello".toList).length ≤ CHUNK_SIZE - CHUNK_OVERLAP
      ∧ (∃ c ∈ "hello".toList, c.isWhitespace = false)
      ∧ (chunkText "hello").length = 1)
    ∧ ((∀ c ∈ "  ".toList, c.isWhitespace = true) ∧ chunkText "  " = []) :=
  ⟨⟨by decide, by decide, chunkText_small_doc.1 "hello" (by decide) (by decide)⟩,
   ⟨by decide, chunkText_small_doc.2 "  " (by decide)⟩⟩

/-- A document of 801 single-character tokens, i.e. fewer than
`CHUNK_SIZE = 1000` whitespace-delimited tokens. -/
def t801 : String := String.mk (joinSpace (List.replicate 801 ['a']))

set_option maxRecDepth 10000 in
/-- C6 counterexample: `t801` has at least one non-whitespace token and
fewer than `CHUNK_SIZE = 1000` whitespace-delimited tokens (801 of them),
yet `chunkText` yields two chunks, not one: the loop runs at indices 0 and
800, and the leftover window of 1 token forms a second chunk. -/
theorem chunkText_two_chunks_below_chunk_size :
    (∃ c ∈ t801.toList, c.isWhitespace = false)
    ∧ (splitWs t801.toList).length = 801
    ∧ 801 < CHUNK_SIZE
    ∧ (chunkText t801).length = 2 :=
  ⟨by decide, by decide, by decide, by decide⟩

/-! ## Embedder (`src/lib/embeddings.ts`)

The SHA-256 digest (`node:crypto`) is modelled as an oracle
`sha256 : String → List Nat` returning the digest bytes (each in
`[0, 256)`). The remote embedding provider (environment configuration plus
one `fetch` call) is modelled as a `ProviderWorld`: `provider` is the name
`resolveProvider()` yields (or `none` when no provider is configured), and
`response` is the combined outcome of the HTTP call, response validation
and `data[0].embedding` extraction — an error for a network failure,
non-2xx status or malformed payload, and `Except.ok` with the returned
vector otherwise. `getFallbackDimension()` (an environment read) is the
parameter `D`. -/

inductive EmbeddingMode where
  | provider
  | deterministic
deriving DecidableEq, Repr

structure EmbeddingResult where
  vector : List ℝ
  mode : EmbeddingMode
  provider : String

structure ProviderWorld where
  provider : Option String
  response : Except String (List ℝ)

/-- Model of `Buffer.readInt32BE(0)`: the first 4 digest bytes as a signed 32-bit
big-endian integer. -/
def readInt32BE (bytes : List Nat) : ℤ :=
  let u : ℕ := (bytes.getD 0 0) * 2 ^ 24 + (bytes.getD 1 0) * 2 ^ 16 +
    (bytes.getD 2 0) * 2 ^ 8 + bytes.getD 3 0
  if u < 2 ^ 31 then (u : ℤ) else (u : ℤ) - 2 ^ 32

/-- The function `deterministicEmbedding` from `src/lib/embeddings.ts`: component `i` is
the first 4 bytes of `sha256("{i}:{text}")` read as a signed 32-bit
big-endian integer, divided by `2^31`. (The `Float32Array` storage
rounding is abstracted away by using `ℝ`.) -/
noncomputable def deterministicEmbedding (sha256 : String → List Nat)
    (text : String) (dimension : Nat) : List ℝ :=
  (List.range dimension).map fun index =>
    ((readInt32BE (sha256 (toString index ++ ":" ++ text)) : ℝ) / 2 ^ 31)

/-- The function `normalizeEmbedding` from `src/lib/embeddings.ts`: rescale to unit L2
norm, returning the vector unchanged when its norm is zero. -/
noncomputable def normalizeEmbedding (vector : List ℝ) : List ℝ :=
  let norm := vector.foldl (fun acc x => acc + x * x) 0
  if norm = 0 then vector
  else vector.map fun x => x * (1 / Real.sqrt norm)

/-- The function `tryProviderEmbedding` from `src/lib/embeddings.ts`. The returned `Bool`
instruments whether the provider endpoint was actually contacted (the
`fetch` call). The `throw` of "empty vector" happens inside the `try`
block, so like every other provider failure it is rethrown when `force`
and swallowed into `null` otherwise. -/
def tryProviderEmbedding (world : ProviderWorld) (_text : String) (force : Bool) :
    Except String (Option EmbeddingResult) × Bool :=
  match world.provider with
  | none =>
    if force then (.error "Embedding provider is not configured.", false)
    else (.ok none, false)
  | some name =>
    match world.response with
    | .error e => if force then (.error e, true) else (.ok none, true)
    | .ok embedding =>
      if embedding.length = 0 then
        if force then (.error "Embedding provider returned an empty vector.", true)
        else (.ok none, true)
      else (.ok (some ⟨embedding, .provider, name⟩), true)

/-- Model of `text.length > 16000 ? text.slice(0, 16000) : text`. -/
def truncate16000 (text : String) : String :=
  if 16000 < text.toList.length then String.mk (text.toList.take 16000) else text

/-- The function `embedText` from `src/lib/embeddings.ts`. The second component of the
result records whether a remote call was attempted. -/
noncomputable def embedText (D : Nat) (sha256 : String → List Nat)
    (world : ProviderWorld) (text : String)
    (preferredMode : Option EmbeddingMode) :
    Except String EmbeddingResult × Bool :=
  let trimmed := truncate16000 text
  if jsTrim trimmed = "" then
    (.ok ⟨deterministicEmbedding sha256 "" D, preferredMode.getD .deterministic,
      "deterministic-hash"⟩, false)
  else if preferredMode = some .deterministic then
    (.ok ⟨deterministicEmbedding sha256 trimmed D, .deterministic,
      "deterministic-hash"⟩, false)
  else
    match tryProviderEmbedding world trimmed (preferredMode = some .provider) with
    | (.error e, fetched) => (.error e, fetched)
    | (.ok (some result), fetched) => (.ok result, fetched)
    | (.ok none, fetched) =>
      if preferredMode = some .provider then
        (.error "Unable to compute embeddings with the configured provider.", fetched)
      else
        (.ok ⟨deterministicEmbedding sha256 trimmed D, .deterministic,
          "deterministic-hash"⟩, fetched)

/-- The provider cannot produce a vector: it is unconfigured, or the call
fails (network error, non-2xx response, malformed response), or it returns
an empty vector. -/
def providerUnavailable (world : ProviderWorld) : Prop :=
  world.provider = none ∨ (∃ e, world.response = Except.error e) ∨
    world.response = Except.ok []

/-! ### C7 -/

/-- C7: `embedText` errors iff the preferred mode is `provider`, the
truncated text is not whitespace-only, and the provider is unavailable;
with no preferred mode it never errors — on any provider failure it
silently falls back and returns the deterministic embedding of the
truncated text; and for whitespace-only text it returns the deterministic
vector of the empty string without attempting a remote call, under every
preferred mode. -/
theorem embedText_error_conditions (D : Nat) (sha256 : String → List Nat)
    (world : ProviderWorld) (text : String) (pref : Option EmbeddingMode) :
    ((∃ e, (embedText D sha256 world text pref).1 = .error e) ↔
      (pref = some .provider ∧ jsTrim (truncate16000 text) ≠ "" ∧
        providerUnavailable world))
    ∧ (pref = none → ∃ r, (embedText D sha256 world text pref).1 = .ok r)
    ∧ (pref = none → jsTrim (truncate16000 text) ≠ "" → providerUnavailable world →
      (embedText D sha256 world text pref).1 =
        .ok ⟨deterministicEmbedding sha256 (truncate16000 text) D, .deterministic,
          "deterministic-hash"⟩)
    ∧ (jsTrim (truncate16000 text) = "" →
      embedText D sha256 world text pref =
        (.ok ⟨deterministicEmbedding sha256 "" D, pref.getD .deterministic,
          "deterministic-hash"⟩, false)) := by
  by_cases h1 : jsTrim (truncate16000 text) = ""
  · refine ⟨?_, ?_, ?_, ?_⟩
    · rw [embedText]
      simp [h1, providerUnavailable]
    · intro _
      rw [embedText]
      simp [h1]
    · intro _ htrim _
      exact absurd h1 htrim
    · intro _
      rw [embedText]
      simp [h1]
  · by_cases h2 : pref = some .deterministic
    · refine ⟨?_, ?_, ?_, ?_⟩
      · rw [embedText]
        simp [h1, h2]
      · intro hnone; rw [hnone] at h2; exact absurd h2 (by simp)
      · intro hnone _ _; rw [hnone] at h2; exact absurd h2 (by simp)
      · intro h; exact absurd h h1
    · rcases hw : world.provider with _ | name
      · refine ⟨?_, ?_, ?_, ?_⟩
        · rw [embedText]
          rcases pref with _ | mode
          · simp [h1, tryProviderEmbedding, hw]
          · cases mode
            · simp [h1, tryProviderEmbedding, hw, providerUnavailable]
            · exact absurd rfl h2
        · intro hnone
          subst hnone
          rw [embedText]
          simp [h1, tryProviderEmbedding, hw]
        · intro hnone _ _
          subst hnone
          rw [embedText]
          simp [h1, tryProviderEmbedding, hw]
        · intro h; exact absurd h h1
      · rcases hr : world.response with e | embedding
        · refine ⟨?_, ?_, ?_, ?_⟩
          · rw [embedText]
            rcases pref with _ | mode
            · simp [h1, tryProviderEmbedding, hw, hr]
            · cases mode
              · simp [h1, tryProviderEmbedding, hw, hr, providerUnavailable]
              · exact absurd rfl h2
          · intro hnone
            subst hnone
            rw [embedText]
            simp [h1, tryProviderEmbedding, hw, hr]
          · intro hnone _ _
            subst hnone
            rw [embedText]
            simp [h1, tryProviderEmbedding, hw, hr]
          · intro h; exact absurd h h1
        · by_cases hemb : embedding = []
          · subst hemb
            refine ⟨?_, ?_, ?_, ?_⟩
            · rw [embedText]
              rcases pref with _ | mode
              · simp [h1, tryProviderEmbedding, hw, hr]
              · cases mode
                · simp [h1, tryProviderEmbedding, hw, hr, providerUnavailable]
                · exact absurd rfl h2
            · intro hnone
              subst hnone
              rw [embedText]
              simp [h1, tryProviderEmbedding, hw, hr]
            · intro hnone _ _
              subst hnone
              rw [embedText]
              simp [h1, tryProviderEmbedding, hw, hr]
            · intro h; exact absurd h h1
          · refine ⟨?_, ?_, ?_, ?_⟩
            · rw [embedText]
              rcases pref with _ | mode
              · simp [h1, tryProviderEmbedding, hw, hr, hemb]
              · cases mode
                · simp [h1, tryProviderEmbedding, hw, hr, hemb, providerUnavailable,
                    List.length_eq_zero]
                · exact absurd rfl h2
            · intro hnone
              subst hnone
              rw [embedText]
              simp [h1, tryProviderEmbedding, hw, hr, hemb, List.length_eq_zero]
            · intro _ _ hunav
              exact absurd hunav (by simp [providerUnavailable, hw, hr, hemb])
            · intro h; exact absurd h h1

/-- C7 witness: with no provider configured, forcing provider mode on
non-blank text errors; the same failing world under no preference
returns the deterministic embedding of the truncated text; and
whitespace-only text under no preference returns the deterministic
empty-string vector without a remote call. -/
theorem embedText_error_conditions_witness :
    (∃ e, (embedText 3 (fun _ => [0, 0, 0, 0]) ⟨none, .ok []⟩ "hi"
      (some .provider)).1 = .error e)
    ∧ (embedText 3 (fun _ => [0, 0, 0, 0]) ⟨none, .ok []⟩ "hi" none).1 =
      .ok ⟨deterministicEmbedding (fun _ => [0, 0, 0, 0]) (truncate16000 "hi") 3,
        .deterministic, "deterministic-hash"⟩
    ∧ embedText 3 (fun _ => [0, 0, 0, 0]) ⟨none, .ok []⟩ "  " none =
      (.ok ⟨deterministicEmbedding (fun _ => [0, 0, 0, 0]) "" 3,
        .deterministic, "deterministic-hash"⟩, false) := by
  refine ⟨?_, ?_, ?_⟩
  · exact (embedText_error_conditions 3 (fun _ => [0, 0, 0, 0]) ⟨none, .ok []⟩
      "hi" (some .provider)).1.mpr ⟨rfl, by decide, Or.inl rfl⟩
  · exact (embedText_error_conditions 3 (fun _ => [0, 0, 0, 0]) ⟨none, .ok []⟩
      "hi" none).2.2.1 rfl (by decide) (Or.inl rfl)
  · have h := (embedText_error_conditions 3 (fun _ => [0, 0, 0, 0])
      ⟨none, .ok []⟩ "  " none).2.2.2 (by decide)
    simpa using h

/-! ### C8 -/

/-- C8: the deterministic embedding for dimension `D` has length `D`,
component `i` equals the first 4 bytes of `sha256("{i}:{text}")` read as a
signed 32-bit big-endian integer divided by `2^31`, and it is a pure
function of the text (equal texts give identical vectors, in one process
or across runs of the same digest function). -/
theorem deterministicEmbedding_components (sha256 : String → List Nat)
    (text : String) (D : Nat) :
    (deterministicEmbedding sha256 text D).length = D
    ∧ (∀ i, i < D →
      (deterministicEmbedding sha256 text D).getD i 0 =
        ((readInt32BE (sha256 (toString i ++ ":" ++ text)) : ℝ) / 2 ^ 31))
    ∧ (∀ text2, text = text2 →
      deterministicEmbedding sha256 text D = deterministicEmbedding sha256 text2 D) := by
  refine ⟨by simp [deterministicEmbedding], ?_, ?_⟩
  · intro i hi
    rw [deterministicEmbedding, List.getD_eq_getElem?_getD, List.getElem?_map,
      List.getElem?_range hi]
    simp
  · rintro text2 rfl
    rfl

/-- C8 witness: component 0 of a dimension-1 embedding of `"hi"` under a
concrete digest oracle. -/
theorem deterministicEmbedding_components_witness :
    0 < 1 ∧
    (deterministicEmbedding (fun _ => [1, 2, 3, 4]) "hi" 1).getD 0 0 =
      ((readInt32BE ((fun _ : String => [1, 2, 3, 4])
        (toString 0 ++ ":" ++ "hi")) : ℝ) / 2 ^ 31) :=
  ⟨by decide,
    (deterministicEmbedding_components (fun _ => [1, 2, 3, 4]) "hi" 1).2.1 0 (by decide)⟩

/-! ## Query scoring helpers shared by both `queryIndex` implementations -/

/-- Model of `query.toLowerCase().split(/\s+/).filter(Boolean)`. -/
def queryTerms (query : String) : List String :=
  (((splitWs (jsToLower query).toList).map fun cs => String.mk cs).filter
    fun t => t ≠ "")

/-- The `terms.reduce((acc, term) => acc + (text.toLowerCase().includes(term)
? 0.05 : 0), 0)` computation shared by both `queryIndex` implementations. -/
noncomputable def keywordBoost (terms : List String) (text : String) : ℝ :=
  terms.foldl
    (fun acc term => acc + if jsIncludes (jsToLower text) term then (0.05 : ℝ) else 0) 0

/-- A retrieval match as returned by `queryIndex` (both implementations
declare the identical `RagMatch` interface). -/
structure RagMatch where
  source : String
  chunkId : Nat
  text : String
  score : ℝ

/-- One insertion step of a stable descending sort by score; an element is
placed before the first element of no greater score, so that elements of
equal score keep their original relative order, matching the guarantees of
JavaScript `Array.prototype.sort` with comparator `(a, b) => b.score -
a.score`. -/
noncomputable def insertByScoreDesc (x : RagMatch) : List RagMatch → List RagMatch
  | [] => [x]
  | y :: ys => if x.score < y.score then y :: insertByScoreDesc x ys else x :: y :: ys

/-- Stable sort by score descending, modelling
`.sort((a, b) => b.score - a.score)`. -/
noncomputable def sortByScoreDesc : List RagMatch → List RagMatch
  | [] => []
  | x :: xs => insertByScoreDesc x (sortByScoreDesc xs)

theorem mem_insertByScoreDesc (x z : RagMatch) (l : List RagMatch) :
    z ∈ insertByScoreDesc x l ↔ z = x ∨ z ∈ l := by
  induction l with
  | nil => simp [insertByScoreDesc]
  | cons y ys ih =>
    rw [insertByScoreDesc]
    by_cases h : x.score < y.score
    · simp only [if_pos h, List.mem_cons, ih]
      tauto
    · simp only [if_neg h, List.mem_cons]

theorem pairwise_insertByScoreDesc (x : RagMatch) (l : List RagMatch)
    (hl : l.Pairwise fun a b => b.score ≤ a.score) :
    (insertByScoreDesc x l).Pairwise fun a b => b.score ≤ a.score := by
  induction l with
  | nil => simp [insertByScoreDesc]
  | cons y ys ih =>
    rw [insertByScoreDesc]
    rcases List.pairwise_cons.mp hl with ⟨hy, hys⟩
    by_cases h : x.score < y.score
    · rw [if_pos h]
      refine List.pairwise_cons.mpr ⟨?_, ih hys⟩
      intro z hz
      rcases (mem_insertByScoreDesc x z ys).mp hz with rfl | hz
      · exact le_of_lt h
      · exact hy z hz
    · rw [if_neg h]
      refine List.pairwise_cons.mpr ⟨?_, hl⟩
      intro z hz
      rcases List.mem_cons.mp hz with rfl | hz
      · exact not_lt.mp h
      · exact le_trans (hy z hz) (not_lt.mp h)

theorem pairwise_sortByScoreDesc (l : List RagMatch) :
    (sortByScoreDesc l).Pairwise fun a b => b.score ≤ a.score := by
  induction l with
  | nil => simp [sortByScoreDesc]
  | cons x xs ih => exact pairwise_insertByScoreDesc x (sortByScoreDesc xs) ih

/-! ## Fallback vector store (`src/unnamed/part_001`)

The earlier, JSON-file-backed implementation: records carry their vectors
inline, embeddings come from one SHA-512 digest, and `queryIndex` scores
all records by cosine similarity plus the keyword boost, then sorts,
truncates and applies the `> 0.01` threshold. The SHA-512 digest (64
bytes) is an oracle `sha512 : String → List Nat`. -/

namespace Fallback

structure VectorRecord where
  id : Nat
  source : String
  chunkId : Nat
  text : String
  vector : List ℝ
  textHash : String

/-- The digest bytes in groups of 4 (`for (i = 0; i < hash.length; i += 4)
... hash.subarray(i, i + 4)`); a SHA-512 digest has 64 bytes, so in the
program every group has exactly 4 bytes. -/
def groupBytes : List Nat → List (List Nat)
  | [] => []
  | [b0] => [[b0]]
  | [b0, b1] => [[b0, b1]]
  | [b0, b1, b2] => [[b0, b1, b2]]
  | b0 :: b1 :: b2 :: b3 :: rest => [b0, b1, b2, b3] :: groupBytes rest

/-- The function `createEmbedding` from `src/unnamed/part_001`. -/
noncomputable def createEmbedding (sha512 : String → List Nat) (text : String) :
    List ℝ :=
  (groupBytes (sha512 text)).map fun seg => ((readInt32BE seg : ℝ) / 2 ^ 31)

/-- The function `cosineSimilarity` from `src/unnamed/part_001`: the loop runs over the
first `min(a.length, b.length)` positions, which `List.zip` produces. -/
noncomputable def cosineSimilarity (a b : List ℝ) : ℝ :=
  let pairs := a.zip b
  let dot := pairs.foldl (fun acc p => acc + p.1 * p.2) 0
  let normA := pairs.foldl (fun acc p => acc + p.1 * p.1) 0
  let normB := pairs.foldl (fun acc p => acc + p.2 * p.2) 0
  if normA = 0 ∨ normB = 0 then 0
  else dot / (Real.sqrt normA * Real.sqrt normB)

/-- The function `queryIndex` from `src/unnamed/part_001`: score every record, sort by
score descending, truncate to `k`, then keep only scores strictly above
`0.01`. -/
noncomputable def queryIndex (sha512 : String → List Nat)
    (records : List VectorRecord) (query : String) (k : Nat) : List RagMatch :=
  if records.length = 0 then []
  else
    let queryVector := createEmbedding sha512 query
    let qTerms := queryTerms query
    let scored := records.map fun record =>
      (⟨record.source, record.chunkId, record.text,
        cosineSimilarity queryVector record.vector +
          keywordBoost qTerms record.text⟩ : RagMatch)
    ((sortByScoreDesc scored).take k).filter fun item => decide ((0.01 : ℝ) < item.score)

end Fallback

/-! ## FAISS-backed vector store (library module bundled with
`src/app/projects/ProjectsBoard.tsx`)

`IndexFlatIP` (native FAISS) is modelled as the list of vectors it stores
plus its creation dimension; `ntotal()` is the list length. The SHA-256
content hash is an oracle `hashText : String → String` (hex digest);
`parseFileToChunks` is an oracle
`parse : String → Except String (String × List String)` returning
`{source, chunks}` or an extraction error; `embedText` (no preferred mode)
is an oracle `embed : String → Except String (List ℝ × EmbeddingMode)`
giving the vector and mode, or the thrown error. `crypto.randomUUID()` is
modelled as a fresh identifier (the current record count). The
`prisma.docMeta.create` call is fire-and-forget with all errors swallowed
and no effect on the store, so it is not modelled. A thrown error carries
the store alongside the message, because the JavaScript store object is
shared, process-wide state that keeps all mutations made before the
`throw`. -/

namespace Rag

structure MetadataRecord where
  id : Nat
  source : String
  chunkId : Nat
  text : String
  textHash : String

structure FaissIndex where
  dim : Nat
  vectors : List (List ℝ)

structure VectorStore where
  index : Option FaissIndex
  metadata : List MetadataRecord
  dimension : ℤ
  mode : EmbeddingMode
  hashes : List String

/-- The store produced by `loadVectorStoreFromDisk` when neither durable
file exists. -/
def emptyVectorStore : VectorStore :=
  { index := none, metadata := [], dimension := 0, mode := .deterministic, hashes := [] }

/-- The fields of `metadata.json` after `JSON.parse`, each `Option` because
`loadVectorStoreFromDisk` validates them individually
(`Array.isArray(parsed.records)`, `Number.isFinite(parsed.dimension)`,
mode is one of the two literals). -/
structure PersistedMetadataPart where
  dimension : Option ℤ
  mode : Option EmbeddingMode
  records : Option (List MetadataRecord)

/-- The function `loadVectorStoreFromDisk`: the outer `Option` of each argument is file
existence, the inner `Option` is read/parse success. -/
def loadVectorStoreFromDisk (metaFile : Option (Option PersistedMetadataPart))
    (indexFile : Option (Option FaissIndex)) : VectorStore :=
  let parsedMeta : Option PersistedMetadataPart :=
    match metaFile with
    | some (some p) => some p
    | _ => none
  let metadata0 : List MetadataRecord :=
    match parsedMeta with
    | some p => p.records.getD []
    | none => []
  let dimension0 : ℤ :=
    match parsedMeta with
    | some p => p.dimension.getD 0
    | none => 0
  let mode0 : EmbeddingMode :=
    match parsedMeta with
    | some p => p.mode.getD .deterministic
    | none => .deterministic
  let index : Option FaissIndex :=
    match indexFile with
    | some (some idx) => some idx
    | _ => none
  let dimension1 : ℤ :=
    match index with
    | some idx => if dimension0 = 0 then (idx.dim : ℤ) else dimension0
    | none => dimension0
  let metadata1 : List MetadataRecord :=
    match index with
    | some idx =>
      if idx.vectors.length ≠ metadata0.length then metadata0.take idx.vectors.length
      else metadata0
    | none => metadata0
  { index := index, metadata := metadata1, dimension := dimension1, mode := mode0,
    hashes := metadata1.map fun r => r.textHash }

structure IndexStats where
  indexed : Nat
  skipped : Nat
deriving DecidableEq, Repr

/-- Appending one accepted chunk: normalize the vector, `index.add` it, push
the metadata record, record the hash. -/
noncomputable def appendRecord (store : VectorStore) (sourceName : String)
    (chunkIndex : Nat) (chunk : String) (textHash : String) (vector : List ℝ) :
    VectorStore :=
  let normalized := normalizeEmbedding vector
  let record : MetadataRecord :=
    { id := store.metadata.length, source := sourceName, chunkId := chunkIndex,
      text := chunk, textHash := textHash }
  { store with
    index :=
      match store.index with
      | some idx => some { idx with vectors := idx.vectors ++ [normalized] }
      | none => none,
    metadata := store.metadata ++ [record],
    hashes := store.hashes ++ [textHash] }

/-- The body of the `for (const [chunkIndex, chunk] of parsed.chunks.entries())`
loop of `indexSources`. -/
noncomputable def indexChunk (hashText : String → String)
    (embed : String → Except String (List ℝ × EmbeddingMode))
    (sourceName : String) (st : VectorStore × IndexStats)
    (chunkIndex : Nat) (chunk : String) :
    Except (String × VectorStore) (VectorStore × IndexStats) :=
  let store := st.1
  let stats := st.2
  let textHash := hashText chunk
  if textHash ∈ store.hashes then
    .ok (store, ⟨stats.indexed, stats.skipped + 1⟩)
  else
    match embed chunk with
    | .error _ => .ok (store, ⟨stats.indexed, stats.skipped + 1⟩)
    | .ok (vector, embMode) =>
      if vector.length = 0 then .ok (store, ⟨stats.indexed, stats.skipped + 1⟩)
      else
        match store.index with
        | none =>
          let store1 : VectorStore :=
            { store with
              index := some ⟨vector.length, []⟩,
              dimension := (vector.length : ℤ),
              mode := embMode }
          .ok (appendRecord store1 sourceName chunkIndex chunk textHash vector,
            ⟨stats.indexed + 1, stats.skipped⟩)
        | some _ =>
          if (vector.length : ℤ) ≠ store.dimension then
            .error ("Embedding dimension mismatch. Clear the vector store directory and re-index.",
              store)
          else if embMode ≠ store.mode then
            .error ("Embedding mode changed. Clear the vector store directory before re-indexing.",
              store)
          else
            .ok (appendRecord store sourceName chunkIndex chunk textHash vector,
              ⟨stats.indexed + 1, stats.skipped⟩)

/-- The chunk loop of `indexSources` over `parsed.chunks.entries()`. -/
noncomputable def indexChunks (hashText : String → String)
    (embed : String → Except String (List ℝ × EmbeddingMode)) (sourceName : String) :
    VectorStore × IndexStats → List (Nat × String) →
      Except (String × VectorStore) (VectorStore × IndexStats)
  | st, [] => .ok st
  | st, (i, c) :: rest =>
    match indexChunk hashText embed sourceName st i c with
    | .error e => .error e
    | .ok st1 => indexChunks hashText embed sourceName st1 rest

/-- One iteration of the source loop of `indexSources`: parse failures are
caught, counted as skipped, and processing continues. -/
noncomputable def indexSource (hashText : String → String)
    (parse : String → Except String (String × List String))
    (embed : String → Except String (List ℝ × EmbeddingMode))
    (st : VectorStore × IndexStats) (source : String) :
    Except (String × VectorStore) (VectorStore × IndexStats) :=
  match parse source with
  | .error _ => .ok (st.1, ⟨st.2.indexed, st.2.skipped + 1⟩)
  | .ok (sourceName, chunks) => indexChunks hashText embed sourceName st chunks.enum

/-- The source loop of `indexSources`. -/
noncomputable def indexSourcesCore (hashText : String → String)
    (parse : String → Except String (String × List String))
    (embed : String → Except String (List ℝ × EmbeddingMode)) :
    VectorStore × IndexStats → List String →
      Except (String × VectorStore) (VectorStore × IndexStats)
  | st, [] => .ok st
  | st, s :: rest =>
    match indexSource hashText parse embed st s with
    | .error e => .error e
    | .ok st1 => indexSourcesCore hashText parse embed st1 rest

/-- The function `indexSources`, instrumented with the list of `saveVectorStore` calls it
performs (each entry is the store written durably to the metadata and
index files): the single batched flush happens after the loop over all
sources, so a thrown mismatch error means no write at all. -/
noncomputable def indexSourcesRun (hashText : String → String)
    (parse : String → Except String (String × List String))
    (embed : String → Except String (List ℝ × EmbeddingMode))
    (store0 : VectorStore) (sources : List String) :
    Except (String × VectorStore) (VectorStore × IndexStats × EmbeddingMode) ×
      List VectorStore :=
  match indexSourcesCore hashText parse embed (store0, ⟨0, 0⟩) sources with
  | .error e => (.error e, [])
  | .ok (store, stats) => (.ok (store, stats, store.mode), [store])

/-- The function `indexSources` from the library module: the result visible to the
caller, `{indexed, skipped, mode}` plus the final store (or the thrown
error together with the mutated in-memory store). -/
noncomputable def indexSources (hashText : String → String)
    (parse : String → Except String (String × List String))
    (embed : String → Except String (List ℝ × EmbeddingMode))
    (store0 : VectorStore) (sources : List String) :
    Except (String × VectorStore) (VectorStore × IndexStats × EmbeddingMode) :=
  (indexSourcesRun hashText parse embed store0 sources).1

/-- JavaScript `Number.isFinite` on a score: in the real-number model every
value is finite (`NaN` and the infinities are artefacts of IEEE-754 that ℝ
does not contain), so this is constantly `true`; it is kept because the
source filters on it. -/
def jsIsFinite (_x : ℝ) : Bool := true

/-- The function `queryIndex` from the library module. `store` is the loaded process-wide
store; `embedRes` is the outcome of
`embedText(query, { preferredMode: store.mode })`; `search` is the FAISS
`index.search` call returning (label, distance) pairs, equal-length arrays
in the native library. -/
noncomputable def queryIndex (store : VectorStore)
    (embedRes : Except String (List ℝ × EmbeddingMode))
    (search : List ℝ → Nat → List (Int × ℝ))
    (query : String) (k : Nat) : Except String (List RagMatch) :=
  if store.index.isNone ∨ store.metadata.length = 0 then .ok []
  else
    match embedRes with
    | .error e => .error e
    | .ok (vector, _embMode) =>
      if (vector.length : ℤ) ≠ store.dimension then
        .error "Embedding dimension mismatch for query. Clear the vector store and rebuild."
      else
        let normalized := normalizeEmbedding vector
        let limit := max 1 (min k store.metadata.length)
        let results := search normalized limit
        let terms := queryTerms query
        let built := results.filterMap fun lr =>
          if lr.1 < 0 then none
          else
            match store.metadata[lr.1.toNat]? with
            | none => none
            | some md =>
              some (⟨md.source, md.chunkId, md.text,
                lr.2 + keywordBoost terms md.text⟩ : RagMatch)
        .ok ((sortByScoreDesc (built.filter fun m => jsIsFinite m.score)).take k)

/-! ### Store lemmas -/

theorem indexChunk_known (hashText : String → String)
    (embed : String → Except String (List ℝ × EmbeddingMode)) (sourceName : String)
    (store : VectorStore) (stats : IndexStats) (i : Nat) (c : String)
    (h : hashText c ∈ store.hashes) :
    indexChunk hashText embed sourceName (store, stats) i c =
      .ok (store, ⟨stats.indexed, stats.skipped + 1⟩) := by
  unfold indexChunk
  dsimp only
  rw [if_pos h]

theorem indexChunks_all_known (hashText : String → String)
    (embed : String → Except String (List ℝ × EmbeddingMode)) (sourceName : String)
    (pairs : List (Nat × String)) :
    ∀ (store : VectorStore) (stats : IndexStats),
    (∀ p ∈ pairs, hashText p.2 ∈ store.hashes) →
    indexChunks hashText embed sourceName (store, stats) pairs =
      .ok (store, ⟨stats.indexed, stats.skipped + pairs.length⟩) := by
  induction pairs with
  | nil =>
    intro store stats _
    rw [indexChunks]
    simp
  | cons p rest ih =>
    intro store stats hall
    obtain ⟨i, c⟩ := p
    rw [indexChunks, indexChunk_known hashText embed sourceName store stats i c
      (hall (i, c) (List.mem_cons_self ..))]
    dsimp only
    rw [ih store ⟨stats.indexed, stats.skipped + 1⟩
      (fun p hp => hall p (List.mem_cons_of_mem _ hp))]
    simp only [List.length_cons, Except.ok.injEq, Prod.mk.injEq, true_and]
    congr 1
    omega

theorem indexChunk_fresh_locked (hashText : String → String)
    (embed : String → Except String (List ℝ × EmbeddingMode)) (sourceName : String)
    (store : VectorStore) (stats : IndexStats) (idx : FaissIndex)
    (i : Nat) (c : String) (v : List ℝ) (m : EmbeddingMode)
    (hidx : store.index = some idx)
    (hfresh : hashText c ∉ store.hashes)
    (hv : embed c = .ok (v, m))
    (hvne : v.length ≠ 0)
    (hdim : (v.length : ℤ) = store.dimension)
    (hmode : m = store.mode) :
    indexChunk hashText embed sourceName (store, stats) i c =
      .ok (appendRecord store sourceName i c (hashText c) v,
        ⟨stats.indexed + 1, stats.skipped⟩) := by
  unfold indexChunk
  dsimp only
  rw [if_neg hfresh, hv]
  dsimp only
  rw [if_neg hvne, hidx]
  dsimp only
  rw [if_neg (by rw [hdim]; simp), if_neg (by rw [hmode]; simp)]

theorem appendRecord_of_index_some (store : VectorStore) (sourceName : String)
    (i : Nat) (c : String) (h : String) (v : List ℝ) (idx : FaissIndex)
    (hidx : store.index = some idx) :
    appendRecord store sourceName i c h v =
      { store with
        index := some ⟨idx.dim, idx.vectors ++ [normalizeEmbedding v]⟩,
        metadata := store.metadata ++
          [⟨store.metadata.length, sourceName, i, c, h⟩],
        hashes := store.hashes ++ [h] } := by
  unfold appendRecord
  rw [hidx]

theorem indexChunks_all_fresh (hashText : String → String)
    (embed : String → Except String (List ℝ × EmbeddingMode)) (sourceName : String)
    (d : Nat) (m : EmbeddingMode) (pairs : List (Nat × String)) :
    ∀ (store : VectorStore) (stats : IndexStats) (idx : FaissIndex),
    store.index = some idx →
    store.dimension = (d : ℤ) →
    store.mode = m →
    0 < d →
    (∀ p ∈ pairs, hashText p.2 ∉ store.hashes) →
    List.Pairwise (fun a b : Nat × String => hashText a.2 ≠ hashText b.2) pairs →
    (∀ p ∈ pairs, ∃ v, embed p.2 = .ok (v, m) ∧ v.length = d) →
    ∃ store' idx' recs,
      indexChunks hashText embed sourceName (store, stats) pairs =
        .ok (store', ⟨stats.indexed + pairs.length, stats.skipped⟩)
      ∧ store'.index = some idx'
      ∧ store'.dimension = (d : ℤ)
      ∧ store'.mode = m
      ∧ store'.metadata = store.metadata ++ recs
      ∧ recs.length = pairs.length
      ∧ store'.hashes = store.hashes ++ pairs.map (fun p => hashText p.2)
      ∧ idx'.vectors.length = idx.vectors.length + pairs.length
      ∧ idx'.dim = idx.dim := by
  induction pairs with
  | nil =>
    intro store stats idx hidx hdim hmode _ _ _ _
    exact ⟨store, idx, [], by rw [indexChunks]; simp, hidx, hdim, hmode, by simp,
      rfl, by simp, by simp, rfl⟩
  | cons p rest ih =>
    intro store stats idx hidx hdim hmode hd hfresh hpw hemb
    obtain ⟨i, c⟩ := p
    obtain ⟨v, hv, hvd⟩ := hemb (i, c) (List.mem_cons_self ..)
    have hstep := indexChunk_fresh_locked hashText embed sourceName store stats idx i c v m
      hidx (hfresh (i, c) (List.mem_cons_self ..)) hv (by omega)
      (by rw [hvd, hdim]) hmode.symm |>.trans
      (by rw [appendRecord_of_index_some _ _ _ _ _ _ idx hidx])
    rcases List.pairwise_cons.mp hpw with ⟨hpw1, hpwrest⟩
    obtain ⟨store', idx', recs, heq, hidx', hdim', hmode', hmeta', hrecs', hhash', hvlen', hdim2'⟩ :=
      ih { store with
            index := some ⟨idx.dim, idx.vectors ++ [normalizeEmbedding v]⟩,
            metadata := store.metadata ++
              [⟨store.metadata.length, sourceName, i, c, hashText c⟩],
            hashes := store.hashes ++ [hashText c] }
        ⟨stats.indexed + 1, stats.skipped⟩
        ⟨idx.dim, idx.vectors ++ [normalizeEmbedding v]⟩
        rfl hdim hmode hd
        (by
          intro p hp
          simp only [List.mem_append, List.mem_singleton, not_or]
          exact ⟨hfresh p (List.mem_cons_of_mem _ hp), fun he => hpw1 p hp he.symm⟩)
        hpwrest
        (fun p hp => hemb p (List.mem_cons_of_mem _ hp))
    refine ⟨store', idx', ⟨store.metadata.length, sourceName, i, c, hashText c⟩ :: recs,
      ?_, hidx', hdim', hmode', ?_, ?_, ?_, ?_, hdim2'⟩
    · rw [indexChunks, hstep]
      dsimp only
      rw [heq]
      simp only [List.length_cons, Except.ok.injEq, Prod.mk.injEq, true_and]
      congr 1
      omega
    · rw [hmeta']
      simp
    · simp [hrecs']
    · rw [hhash']
      simp
    · have hv2 := hvlen'
      simp only [List.length_append, List.length_singleton] at hv2
      rw [List.length_cons]
      omega

theorem indexChunk_fresh_unlocked (hashText : String → String)
    (embed : String → Except String (List ℝ × EmbeddingMode)) (sourceName : String)
    (store : VectorStore) (stats : IndexStats) (i : Nat) (c : String)
    (v : List ℝ) (m : EmbeddingMode)
    (hidx : store.index = none)
    (hfresh : hashText c ∉ store.hashes)
    (hv : embed c = .ok (v, m))
    (hvne : v.length ≠ 0) :
    indexChunk hashText embed sourceName (store, stats) i c =
      .ok ({ store with
          index := some ⟨v.length, [normalizeEmbedding v]⟩,
          dimension := (v.length : ℤ),
          mode := m,
          metadata := store.metadata ++
            [⟨store.metadata.length, sourceName, i, c, hashText c⟩],
          hashes := store.hashes ++ [hashText c] },
        ⟨stats.indexed + 1, stats.skipped⟩) := by
  unfold indexChunk
  dsimp only
  rw [if_neg hfresh, hv]
  dsimp only
  rw [if_neg hvne, hidx]
  dsimp only
  rw [appendRecord_of_index_some _ _ _ _ _ _ ⟨v.length, []⟩ rfl]
  simp

theorem indexChunks_fresh_unlocked (hashText : String → String)
    (embed : String → Except String (List ℝ × EmbeddingMode)) (sourceName : String)
    (d : Nat) (m : EmbeddingMode) (pairs : List (Nat × String))
    (store : VectorStore) (stats : IndexStats)
    (hidx : store.index = none)
    (hd : 0 < d)
    (hfresh : ∀ p ∈ pairs, hashText p.2 ∉ store.hashes)
    (hpw : List.Pairwise (fun a b : Nat × String => hashText a.2 ≠ hashText b.2) pairs)
    (hemb : ∀ p ∈ pairs, ∃ v, embed p.2 = .ok (v, m) ∧ v.length = d) :
    ∃ store' recs,
      indexChunks hashText embed sourceName (store, stats) pairs =
        .ok (store', ⟨stats.indexed + pairs.length, stats.skipped⟩)
      ∧ store'.metadata = store.metadata ++ recs
      ∧ recs.length = pairs.length
      ∧ store'.hashes = store.hashes ++ pairs.map (fun p => hashText p.2)
      ∧ (pairs = [] → store' = store)
      ∧ (pairs ≠ [] → store'.dimension = (d : ℤ) ∧ store'.mode = m ∧
          ∃ idx', store'.index = some idx' ∧ idx'.dim = d ∧
            idx'.vectors.length = pairs.length) := by
  match pairs, hfresh, hpw, hemb with
  | [], _, _, _ =>
    exact ⟨store, [], by rw [indexChunks]; simp, by simp, rfl, by simp,
      fun _ => rfl, fun h => absurd rfl h⟩
  | (i, c) :: rest, hfresh, hpw, hemb =>
    obtain ⟨v, hv, hvd⟩ := hemb (i, c) (List.mem_cons_self ..)
    have hstep := indexChunk_fresh_unlocked hashText embed sourceName store stats i c v m
      hidx (hfresh (i, c) (List.mem_cons_self ..)) hv (by omega)
    rcases List.pairwise_cons.mp hpw with ⟨hpw1, hpwrest⟩
    obtain ⟨store', idx', recs, heq, hidx', hdim', hmode', hmeta', hrecs', hhash', hvlen', hdim2'⟩ :=
      indexChunks_all_fresh hashText embed sourceName d m rest
        { store with
          index := some ⟨v.length, [normalizeEmbedding v]⟩,
          dimension := (v.length : ℤ),
          mode := m,
          metadata := store.metadata ++
            [⟨store.metadata.length, sourceName, i, c, hashText c⟩],
          hashes := store.hashes ++ [hashText c] }
        ⟨stats.indexed + 1, stats.skipped⟩
        ⟨v.length, [normalizeEmbedding v]⟩
        rfl (by rw [hvd]) rfl hd
        (by
          intro p hp
          simp only [List.mem_append, List.mem_singleton, not_or]
          exact ⟨hfresh p (List.mem_cons_of_mem _ hp), fun he => hpw1 p hp he.symm⟩)
        hpwrest
        (fun p hp => hemb p (List.mem_cons_of_mem _ hp))
    refine ⟨store', ⟨store.metadata.length, sourceName, i, c, hashText c⟩ :: recs,
      ?_, ?_, ?_, ?_, by simp, fun _ => ⟨hdim', hmode', idx', hidx', ?_, ?_⟩⟩
    · rw [indexChunks, hstep]
      dsimp only
      rw [heq]
      simp only [List.length_cons, Except.ok.injEq, Prod.mk.injEq, true_and]
      congr 1
      omega
    · rw [hmeta']
      simp
    · simp [hrecs']
    · rw [hhash']
      simp
    · rw [hdim2', hvd]
    · have hv2 := hvlen'
      simp only [List.length_singleton] at hv2
      rw [hv2, List.length_cons]
      omega

/-- The metadata/index lockstep invariant: the number of metadata records
equals `ntotal()` of the underlying FAISS index (a missing index counts as
zero vectors, which is how `indexSources` treats it when creating one). -/
def StoreWF (store : VectorStore) : Prop :=
  match store.index with
  | none => store.metadata = []
  | some idx => store.metadata.length = idx.vectors.length

theorem indexChunk_wf (hashText : String → String)
    (embed : String → Except String (List ℝ × EmbeddingMode)) (sourceName : String)
    (store : VectorStore) (stats : IndexStats) (i : Nat) (c : String)
    (store' : VectorStore) (stats' : IndexStats)
    (hwf : StoreWF store)
    (h : indexChunk hashText embed sourceName (store, stats) i c = .ok (store', stats')) :
    StoreWF store' := by
  unfold indexChunk at h
  dsimp only at h
  by_cases h1 : hashText c ∈ store.hashes
  · rw [if_pos h1] at h
    injection h with h
    injection h with h _
    exact h ▸ hwf
  · rw [if_neg h1] at h
    rcases hv : embed c with e | ⟨v, m⟩ <;> rw [hv] at h
    · dsimp only at h
      injection h with h
      injection h with h _
      exact h ▸ hwf
    · dsimp only at h
      by_cases h2 : v.length = 0
      · rw [if_pos h2] at h
        injection h with h
        injection h with h _
        exact h ▸ hwf
      · rw [if_neg h2] at h
        rcases hidx : store.index with _ | idx <;> rw [hidx] at h
        · dsimp only at h
          injection h with h
          injection h with h _
          have hmeta : store.metadata = [] := by
            unfold StoreWF at hwf
            rw [hidx] at hwf
            exact hwf
          rw [← h, appendRecord_of_index_some _ _ _ _ _ _ ⟨v.length, []⟩ rfl]
          unfold StoreWF
          simp [hmeta]
        · dsimp only at h
          by_cases h3 : (v.length : ℤ) ≠ store.dimension
          · rw [if_pos h3] at h
            exact absurd h (by simp)
          · rw [if_neg h3] at h
            by_cases h4 : m ≠ store.mode
            · rw [if_pos h4] at h
              exact absurd h (by simp)
            · rw [if_neg h4] at h
              injection h with h
              injection h with h _
              have hmeta : store.metadata.length = idx.vectors.length := by
                unfold StoreWF at hwf
                rw [hidx] at hwf
                exact hwf
              rw [← h, appendRecord_of_index_some _ _ _ _ _ _ idx hidx]
              unfold StoreWF
              simp [hmeta]

/-- Every outcome of `indexChunk` — skip, append, or throw — leaves the
input store's metadata as a prefix of the resulting store's metadata (a
throw returns the store unchanged; the record, if any, is appended). -/
theorem indexChunk_extends (hashText : String → String)
    (embed : String → Except String (List ℝ × EmbeddingMode)) (sourceName : String)
    (store : VectorStore) (stats : IndexStats) (i : Nat) (c : String) :
    (∀ store' stats', indexChunk hashText embed sourceName (store, stats) i c =
        .ok (store', stats') → ∃ extra, store'.metadata = store.metadata ++ extra)
    ∧ (∀ e store', indexChunk hashText embed sourceName (store, stats) i c =
        .error (e, store') → store' = store) := by
  unfold indexChunk
  dsimp only
  by_cases h1 : hashText c ∈ store.hashes
  · rw [if_pos h1]
    exact ⟨fun store' stats' h => by
        injection h with h
        injection h with h _
        exact ⟨[], by simp [← h]⟩,
      fun e store' h => by exact absurd h (by simp)⟩
  · rw [if_neg h1]
    rcases hv : embed c with e | ⟨v, m⟩
    · exact ⟨fun store' stats' h => by
        injection h with h
        injection h with h _
        exact ⟨[], by simp [← h]⟩,
      fun e store' h => by exact absurd h (by simp)⟩
    · dsimp only
      by_cases h2 : v.length = 0
      · rw [if_pos h2]
        exact ⟨fun store' stats' h => by
          injection h with h
          injection h with h _
          exact ⟨[], by simp [← h]⟩,
        fun e store' h => by exact absurd h (by simp)⟩
      · rw [if_neg h2]
        rcases hidx : store.index with _ | idx
        · dsimp only
          refine ⟨fun store' stats' h => ?_, fun e store' h => by exact absurd h (by simp)⟩
          injection h with h
          injection h with h _
          rw [← h, appendRecord_of_index_some _ _ _ _ _ _ ⟨v.length, []⟩ rfl]
          exact ⟨_, rfl⟩
        · dsimp only
          by_cases h3 : (v.length : ℤ) ≠ store.dimension
          · rw [if_pos h3]
            refine ⟨fun store' stats' h => absurd h (by simp),
              fun e store' h => ?_⟩
            injection h with h
            injection h with _ h
            exact h.symm
          · rw [if_neg h3]
            by_cases h4 : m ≠ store.mode
            · rw [if_pos h4]
              refine ⟨fun store' stats' h => absurd h (by simp),
                fun e store' h => ?_⟩
              injection h with h
              injection h with _ h
              exact h.symm
            · rw [if_neg h4]
              refine ⟨fun store' stats' h => ?_, fun e store' h => by exact absurd h (by simp)⟩
              injection h with h
              injection h with h _
              rw [← h, appendRecord_of_index_some _ _ _ _ _ _ idx hidx]
              exact ⟨_, rfl⟩

theorem indexChunks_wf (hashText : String → String)
    (embed : String → Except String (List ℝ × EmbeddingMode)) (sourceName : String)
    (pairs : List (Nat × String)) :
    ∀ (store : VectorStore) (stats : IndexStats) (store' : VectorStore)
      (stats' : IndexStats),
    StoreWF store →
    indexChunks hashText embed sourceName (store, stats) pairs = .ok (store', stats') →
    StoreWF store' := by
  induction pairs with
  | nil =>
    intro store stats store' stats' hwf h
    rw [indexChunks] at h
    injection h with h
    injection h with h _
    exact h ▸ hwf
  | cons p rest ih =>
    intro store stats store' stats' hwf h
    obtain ⟨i, c⟩ := p
    rw [indexChunks] at h
    rcases hstep : indexChunk hashText embed sourceName (store, stats) i c with e | ⟨store1, stats1⟩ <;>
      rw [hstep] at h
    · exact absurd h (by simp)
    · dsimp only at h
      exact ih store1 stats1 store' stats'
        (indexChunk_wf hashText embed sourceName store stats i c store1 stats1 hwf hstep) h

theorem indexChunks_extends (hashText : String → String)
    (embed : String → Except String (List ℝ × EmbeddingMode)) (sourceName : String)
    (pairs : List (Nat × String)) :
    ∀ (store : VectorStore) (stats : IndexStats),
    (∀ store' stats', indexChunks hashText embed sourceName (store, stats) pairs =
        .ok (store', stats') → ∃ extra, store'.metadata = store.metadata ++ extra)
    ∧ (∀ e store', indexChunks hashText embed sourceName (store, stats) pairs =
        .error (e, store') → ∃ extra, store'.metadata = store.metadata ++ extra) := by
  induction pairs with
  | nil =>
    intro store stats
    constructor
    · intro store' stats' h
      rw [indexChunks] at h
      injection h with h
      injection h with h _
      exact ⟨[], by simp [← h]⟩
    · intro e store' h
      rw [indexChunks] at h
      exact absurd h (by simp)
  | cons p rest ih =>
    intro store stats
    obtain ⟨i, c⟩ := p
    constructor
    · intro store' stats' h
      rw [indexChunks] at h
      rcases hstep : indexChunk hashText embed sourceName (store, stats) i c with e | ⟨store1, stats1⟩ <;>
        rw [hstep] at h
      · exact absurd h (by simp)
      · dsimp only at h
        obtain ⟨e1, he1⟩ := (indexChunk_extends hashText embed sourceName store stats i c).1
          store1 stats1 hstep
        obtain ⟨e2, he2⟩ := (ih store1 stats1).1 store' stats' h
        exact ⟨e1 ++ e2, by rw [he2, he1, List.append_assoc]⟩
    · intro e store' h
      rw [indexChunks] at h
      rcases hstep : indexChunk hashText embed sourceName (store, stats) i c with e0 | ⟨store1, stats1⟩ <;>
        rw [hstep] at h
      · dsimp only at h
        injection h with h
        obtain ⟨msg, st⟩ := e0
        have hst := (indexChunk_extends hashText embed sourceName store stats i c).2
          msg st hstep
        injection h with hmsg hstore
        exact ⟨[], by rw [← hstore, hst, List.append_nil]⟩
      · dsimp only at h
        obtain ⟨e1, he1⟩ := (indexChunk_extends hashText embed sourceName store stats i c).1
          store1 stats1 hstep
        obtain ⟨e2, he2⟩ := (ih store1 stats1).2 e store' h
        exact ⟨e1 ++ e2, by rw [he2, he1, List.append_assoc]⟩

theorem indexSource_wf (hashText : String → String)
    (parse : String → Except String (String × List String))
    (embed : String → Except String (List ℝ × EmbeddingMode))
    (store : VectorStore) (stats : IndexStats) (s : String)
    (store' : VectorStore) (stats' : IndexStats)
    (hwf : StoreWF store)
    (h : indexSource hashText parse embed (store, stats) s = .ok (store', stats')) :
    StoreWF store' := by
  unfold indexSource at h
  rcases hp : parse s with e | ⟨name, chunks⟩ <;> rw [hp] at h
  · dsimp only at h
    injection h with h
    injection h with h _
    exact h ▸ hwf
  · exact indexChunks_wf hashText embed name chunks.enum store stats store' stats' hwf h

theorem indexSource_extends (hashText : String → String)
    (parse : String → Except String (String × List String))
    (embed : String → Except String (List ℝ × EmbeddingMode))
    (store : VectorStore) (stats : IndexStats) (s : String) :
    (∀ store' stats', indexSource hashText parse embed (store, stats) s =
        .ok (store', stats') → ∃ extra, store'.metadata = store.metadata ++ extra)
    ∧ (∀ e store', indexSource hashText parse embed (store, stats) s =
        .error (e, store') → ∃ extra, store'.metadata = store.metadata ++ extra) := by
  unfold indexSource
  rcases hp : parse s with e | ⟨name, chunks⟩
  · constructor
    · intro store' stats' h
      dsimp only at h
      injection h with h
      injection h with h _
      exact ⟨[], by simp [← h]⟩
    · intro e store' h
      exact absurd h (by simp)
  · exact indexChunks_extends hashText embed name chunks.enum store stats

theorem indexSourcesCore_wf (hashText : String → String)
    (parse : String → Except String (String × List String))
    (embed : String → Except String (List ℝ × EmbeddingMode))
    (sources : List String) :
    ∀ (store : VectorStore) (stats : IndexStats) (store' : VectorStore)
      (stats' : IndexStats),
    StoreWF store →
    indexSourcesCore hashText parse embed (store, stats) sources = .ok (store', stats') →
    StoreWF store' := by
  induction sources with
  | nil =>
    intro store stats store' stats' hwf h
    rw [indexSourcesCore] at h
    injection h with h
    injection h with h _
    exact h ▸ hwf
  | cons s rest ih =>
    intro store stats store' stats' hwf h
    rw [indexSourcesCore] at h
    rcases hstep : indexSource hashText parse embed (store, stats) s with e | ⟨store1, stats1⟩ <;>
      rw [hstep] at h
    · exact absurd h (by simp)
    · dsimp only at h
      exact ih store1 stats1 store' stats'
        (indexSource_wf hashText parse embed store stats s store1 stats1 hwf hstep) h

theorem indexSourcesCore_extends (hashText : String → String)
    (parse : String → Except String (String × List String))
    (embed : String → Except String (List ℝ × EmbeddingMode))
    (sources : List String) :
    ∀ (store : VectorStore) (stats : IndexStats),
    (∀ store' stats', indexSourcesCore hashText parse embed (store, stats) sources =
        .ok (store', stats') → ∃ extra, store'.metadata = store.metadata ++ extra)
    ∧ (∀ e store', indexSourcesCore hashText parse embed (store, stats) sources =
        .error (e, store') → ∃ extra, store'.metadata = store.metadata ++ extra) := by
  induction sources with
  | nil =>
    intro store stats
    constructor
    · intro store' stats' h
      rw [indexSourcesCore] at h
      injection h with h
      injection h with h _
      exact ⟨[], by simp [← h]⟩
    · intro e store' h
      rw [indexSourcesCore] at h
      exact absurd h (by simp)
  | cons s rest ih =>
    intro store stats
    constructor
    · intro store' stats' h
      rw [indexSourcesCore] at h
      rcases hstep : indexSource hashText parse embed (store, stats) s with e | ⟨store1, stats1⟩ <;>
        rw [hstep] at h
      · exact absurd h (by simp)
      · dsimp only at h
        obtain ⟨e1, he1⟩ := (indexSource_extends hashText parse embed store stats s).1
          store1 stats1 hstep
        obtain ⟨e2, he2⟩ := (ih store1 stats1).1 store' stats' h
        exact ⟨e1 ++ e2, by rw [he2, he1, List.append_assoc]⟩
    · intro e store' h
      rw [indexSourcesCore] at h
      rcases hstep : indexSource hashText parse embed (store, stats) s with e0 | ⟨store1, stats1⟩ <;>
        rw [hstep] at h
      · dsimp only at h
        injection h with h
        obtain ⟨msg, st⟩ := e0
        obtain ⟨e1, he1⟩ := (indexSource_extends hashText parse embed store stats s).2
          msg st hstep
        injection h with hmsg hstore
        exact ⟨e1, by rw [← hstore, he1]⟩
      · dsimp only at h
        obtain ⟨e1, he1⟩ := (indexSource_extends hashText parse embed store stats s).1
          store1 stats1 hstep
        obtain ⟨e2, he2⟩ := (ih store1 stats1).2 e store' h
        exact ⟨e1 ++ e2, by rw [he2, he1, List.append_assoc]⟩

theorem indexChunks_propagates (hashText : String → String)
    (embed : String → Except String (List ℝ × EmbeddingMode)) (sourceName : String)
    (pre : List (Nat × String)) :
    ∀ (store : VectorStore) (stats : IndexStats) (S : VectorStore) (stats1 : IndexStats)
      (bi : Nat) (bc : String) (post : List (Nat × String)) (e : String × VectorStore),
    indexChunks hashText embed sourceName (store, stats) pre = .ok (S, stats1) →
    indexChunk hashText embed sourceName (S, stats1) bi bc = .error e →
    indexChunks hashText embed sourceName (store, stats) (pre ++ (bi, bc) :: post) =
      .error e := by
  induction pre with
  | nil =>
    intro store stats S stats1 bi bc post e h1 h2
    rw [indexChunks] at h1
    injection h1 with h1
    rw [List.nil_append, indexChunks]
    obtain ⟨rfl, rfl⟩ := Prod.mk.injEq .. ▸ h1
    rw [h2]
  | cons p rest ih =>
    intro store stats S stats1 bi bc post e h1 h2
    obtain ⟨i, c⟩ := p
    rw [indexChunks] at h1
    rcases hstep : indexChunk hashText embed sourceName (store, stats) i c with e0 | ⟨store1, stats2⟩ <;>
      rw [hstep] at h1
    · exact absurd h1 (by simp)
    · dsimp only at h1
      rw [List.cons_append, indexChunks, hstep]
      dsimp only
      exact ih store1 stats2 S stats1 bi bc post e h1 h2

theorem indexSourcesCore_propagates (hashText : String → String)
    (parse : String → Except String (String × List String))
    (embed : String → Except String (List ℝ × EmbeddingMode))
    (pre : List String) :
    ∀ (store : VectorStore) (stats : IndexStats) (S : VectorStore) (stats1 : IndexStats)
      (s : String) (post : List String) (e : String × VectorStore),
    indexSourcesCore hashText parse embed (store, stats) pre = .ok (S, stats1) →
    indexSource hashText parse embed (S, stats1) s = .error e →
    indexSourcesCore hashText parse embed (store, stats) (pre ++ s :: post) =
      .error e := by
  induction pre with
  | nil =>
    intro store stats S stats1 s post e h1 h2
    rw [indexSourcesCore] at h1
    injection h1 with h1
    rw [List.nil_append, indexSourcesCore]
    obtain ⟨rfl, rfl⟩ := Prod.mk.injEq .. ▸ h1
    rw [h2]
  | cons s0 rest ih =>
    intro store stats S stats1 s post e h1 h2
    rw [indexSourcesCore] at h1
    rcases hstep : indexSource hashText parse embed (store, stats) s0 with e0 | ⟨store1, stats2⟩ <;>
      rw [hstep] at h1
    · exact absurd h1 (by simp)
    · dsimp only at h1
      rw [List.cons_append, indexSourcesCore, hstep]
      dsimp only
      exact ih store1 stats2 S stats1 s post e h1 h2

theorem indexSources_error_of_core (hashText : String → String)
    (parse : String → Except String (String × List String))
    (embed : String → Except String (List ℝ × EmbeddingMode))
    (store0 : VectorStore) (sources : List String) (e : String × VectorStore)
    (h : indexSourcesCore hashText parse embed (store0, ⟨0, 0⟩) sources = .error e) :
    indexSources hashText parse embed store0 sources = .error e := by
  unfold indexSources indexSourcesRun
  rw [h]

theorem indexSources_ok_of_core (hashText : String → String)
    (parse : String → Except String (String × List String))
    (embed : String → Except String (List ℝ × EmbeddingMode))
    (store0 : VectorStore) (sources : List String) (store' : VectorStore)
    (stats : IndexStats)
    (h : indexSourcesCore hashText parse embed (store0, ⟨0, 0⟩) sources =
      .ok (store', stats)) :
    indexSources hashText parse embed store0 sources =
      .ok (store', stats, store'.mode) := by
  unfold indexSources indexSourcesRun
  rw [h]

end Rag

theorem snd_mem_of_mem_enumFrom {α : Type} (l : List α) :
    ∀ (n : Nat) (p : Nat × α), p ∈ List.enumFrom n l → p.2 ∈ l := by
  induction l with
  | nil => intro n p hp; simp at hp
  | cons a t ih =>
    intro n p hp
    rcases List.mem_cons.mp hp with rfl | hp
    · exact List.mem_cons_self ..
    · exact List.mem_cons_of_mem _ (ih (n + 1) p hp)

theorem pairwise_enumFrom {α : Type} (R : α → α → Prop) (l : List α) :
    ∀ n, l.Pairwise R → (List.enumFrom n l).Pairwise fun a b => R a.2 b.2 := by
  induction l with
  | nil => intro n _; simp
  | cons a t ih =>
    intro n h
    rcases List.pairwise_cons.mp h with ⟨ha, ht⟩
    refine List.pairwise_cons.mpr ⟨?_, ih (n + 1) ht⟩
    intro p hp
    exact ha p.2 (snd_mem_of_mem_enumFrom t (n + 1) p hp)

theorem pairwise_enum {α : Type} (R : α → α → Prop) (l : List α)
    (h : l.Pairwise R) : l.enum.Pairwise fun a b => R a.2 b.2 :=
  pairwise_enumFrom R l 0 h

theorem snd_mem_of_mem_enum {α : Type} (l : List α) (p : Nat × α)
    (h : p ∈ l.enum) : p.2 ∈ l :=
  snd_mem_of_mem_enumFrom l 0 p h

/-! ### C2 -/

/-- C2: dedup is global and content-addressed. A chunk whose hash is
already known is skipped (no record appended, skip counter incremented)
regardless of source name and position; indexing a source of `N`
distinct-hash chunks into an empty store gives `indexed = N, skipped = 0`
and indexing it again gives `indexed = 0, skipped = N` with the store
unchanged; and two sources with byte-identical chunk lists produce
`N` records in total, not `2N`. -/
theorem indexSources_dedup :
    (∀ (hashText : String → String)
      (embed : String → Except String (List ℝ × EmbeddingMode))
      (sourceName : String) (store : Rag.VectorStore) (stats : Rag.IndexStats)
      (i : Nat) (c : String),
      hashText c ∈ store.hashes →
      Rag.indexChunk hashText embed sourceName (store, stats) i c =
        .ok (store, ⟨stats.indexed, stats.skipped + 1⟩))
    ∧ (∀ (hashText : String → String)
      (parse : String → Except String (String × List String))
      (embed : String → Except String (List ℝ × EmbeddingMode))
      (s name : String) (chunks : List String) (d : Nat) (m : EmbeddingMode),
      parse s = .ok (name, chunks) →
      chunks.Pairwise (fun a b => hashText a ≠ hashText b) →
      (∀ c ∈ chunks, ∃ v, embed c = .ok (v, m) ∧ v.length = d) →
      0 < d →
      ∃ store1,
        Rag.indexSources hashText parse embed Rag.emptyVectorStore [s] =
          .ok (store1, ⟨chunks.length, 0⟩, store1.mode)
        ∧ Rag.indexSources hashText parse embed store1 [s] =
          .ok (store1, ⟨0, chunks.length⟩, store1.mode)
        ∧ store1.metadata.length = chunks.length)
    ∧ (∀ (hashText : String → String)
      (parse : String → Except String (String × List String))
      (embed : String → Except String (List ℝ × EmbeddingMode))
      (s1 s2 name1 name2 : String) (chunks : List String) (d : Nat)
      (m : EmbeddingMode),
      s1 ≠ s2 →
      parse s1 = .ok (name1, chunks) →
      parse s2 = .ok (name2, chunks) →
      chunks.Pairwise (fun a b => hashText a ≠ hashText b) →
      (∀ c ∈ chunks, ∃ v, embed c = .ok (v, m) ∧ v.length = d) →
      0 < d →
      ∃ store2,
        Rag.indexSources hashText parse embed Rag.emptyVectorStore [s1, s2] =
          .ok (store2, ⟨chunks.length, chunks.length⟩, store2.mode)
        ∧ store2.metadata.length = chunks.length) := by
  refine ⟨?_, ?_, ?_⟩
  · intro hashText embed sourceName store stats i c h
    exact Rag.indexChunk_known hashText embed sourceName store stats i c h
  · intro hashText parse embed s name chunks d m hp hpw hemb hd
    obtain ⟨store1, recs, heq, hmeta, hrecs, hhash, _, _⟩ :=
      Rag.indexChunks_fresh_unlocked hashText embed name d m chunks.enum
        Rag.emptyVectorStore ⟨0, 0⟩ rfl hd
        (by intro p _; simp [Rag.emptyVectorStore])
        (pairwise_enum _ chunks hpw)
        (fun p hp2 => hemb p.2 (snd_mem_of_mem_enum chunks p hp2))
    have hcore1 : Rag.indexSourcesCore hashText parse embed
        (Rag.emptyVectorStore, ⟨0, 0⟩) [s] = .ok (store1, ⟨chunks.length, 0⟩) := by
      rw [Rag.indexSourcesCore]
      have hsrc : Rag.indexSource hashText parse embed (Rag.emptyVectorStore, ⟨0, 0⟩) s =
          .ok (store1, ⟨chunks.length, 0⟩) := by
        unfold Rag.indexSource
        rw [hp]
        dsimp only
        rw [heq]
        simp [List.enum_length]
      rw [hsrc]
      dsimp only
      rw [Rag.indexSourcesCore]
    have hknown : ∀ p ∈ chunks.enum, hashText p.2 ∈ store1.hashes := by
      intro p hp2
      rw [hhash]
      simp only [Rag.emptyVectorStore, List.nil_append]
      exact List.mem_map.mpr ⟨p, hp2, rfl⟩
    have hcore2 : Rag.indexSourcesCore hashText parse embed
        (store1, ⟨0, 0⟩) [s] = .ok (store1, ⟨0, chunks.length⟩) := by
      rw [Rag.indexSourcesCore]
      have hsrc : Rag.indexSource hashText parse embed (store1, ⟨0, 0⟩) s =
          .ok (store1, ⟨0, chunks.length⟩) := by
        unfold Rag.indexSource
        rw [hp]
        dsimp only
        rw [Rag.indexChunks_all_known hashText embed name chunks.enum store1 ⟨0, 0⟩ hknown]
        simp [List.enum_length]
      rw [hsrc]
      dsimp only
      rw [Rag.indexSourcesCore]
    refine ⟨store1, Rag.indexSources_ok_of_core _ _ _ _ _ _ _ hcore1,
      Rag.indexSources_ok_of_core _ _ _ _ _ _ _ hcore2, ?_⟩
    rw [hmeta]
    simp only [Rag.emptyVectorStore, List.nil_append]
    rw [hrecs, List.enum_length]
  · intro hashText parse embed s1 s2 name1 name2 chunks d m _ hp1 hp2 hpw hemb hd
    obtain ⟨store1, recs, heq, hmeta, hrecs, hhash, _, _⟩ :=
      Rag.indexChunks_fresh_unlocked hashText embed name1 d m chunks.enum
        Rag.emptyVectorStore ⟨0, 0⟩ rfl hd
        (by intro p _; simp [Rag.emptyVectorStore])
        (pairwise_enum _ chunks hpw)
        (fun p hp => hemb p.2 (snd_mem_of_mem_enum chunks p hp))
    have hknown : ∀ p ∈ chunks.enum, hashText p.2 ∈ store1.hashes := by
      intro p hp
      rw [hhash]
      simp only [Rag.emptyVectorStore, List.nil_append]
      exact List.mem_map.mpr ⟨p, hp, rfl⟩
    have hcore : Rag.indexSourcesCore hashText parse embed
        (Rag.emptyVectorStore, ⟨0, 0⟩) [s1, s2] =
        .ok (store1, ⟨chunks.length, chunks.length⟩) := by
      rw [Rag.indexSourcesCore]
      have hsrc1 : Rag.indexSource hashText parse embed (Rag.emptyVectorStore, ⟨0, 0⟩) s1 =
          .ok (store1, ⟨chunks.length, 0⟩) := by
        unfold Rag.indexSource
        rw [hp1]
        dsimp only
        rw [heq]
        simp [List.enum_length]
      rw [hsrc1]
      dsimp only
      rw [Rag.indexSourcesCore]
      have hsrc2 : Rag.indexSource hashText parse embed (store1, ⟨chunks.length, 0⟩) s2 =
          .ok (store1, ⟨chunks.length, chunks.length⟩) := by
        unfold Rag.indexSource
        rw [hp2]
        dsimp only
        rw [Rag.indexChunks_all_known hashText embed name2 chunks.enum store1
          ⟨chunks.length, 0⟩ hknown]
        simp [List.enum_length]
      rw [hsrc2]
      dsimp only
      rw [Rag.indexSourcesCore]
    refine ⟨store1, Rag.indexSources_ok_of_core _ _ _ _ _ _ _ hcore, ?_⟩
    rw [hmeta]
    simp only [Rag.emptyVectorStore, List.nil_append]
    rw [hrecs, List.enum_length]

/-- C2 witness: a source of two distinct chunks indexed twice from an empty
store, and the cross-source run over two sources with identical chunks. -/
theorem indexSources_dedup_witness :
    (∃ store1,
      Rag.indexSources (fun s => s) (fun _ => .ok ("doc", ["x", "y"]))
        (fun _ => .ok ([(1 : ℝ)], .deterministic)) Rag.emptyVectorStore ["s"] =
        .ok (store1, ⟨2, 0⟩, store1.mode)
      ∧ Rag.indexSources (fun s => s) (fun _ => .ok ("doc", ["x", "y"]))
        (fun _ => .ok ([(1 : ℝ)], .deterministic)) store1 ["s"] =
        .ok (store1, ⟨0, 2⟩, store1.mode)
      ∧ store1.metadata.length = 2)
    ∧ (∃ store2,
      Rag.indexSources (fun s => s) (fun _ => .ok ("doc", ["x", "y"]))
        (fun _ => .ok ([(1 : ℝ)], .deterministic)) Rag.emptyVectorStore ["a", "b"] =
        .ok (store2, ⟨2, 2⟩, store2.mode)
      ∧ store2.metadata.length = 2) :=
  ⟨indexSources_dedup.2.1 (fun s => s) (fun _ => .ok ("doc", ["x", "y"]))
      (fun _ => .ok ([(1 : ℝ)], .deterministic)) "s" "doc" ["x", "y"] 1 .deterministic
      rfl (by simp) (fun c _ => ⟨[1], rfl, rfl⟩) (by decide),
    indexSources_dedup.2.2 (fun s => s) (fun _ => .ok ("doc", ["x", "y"]))
      (fun _ => .ok ([(1 : ℝ)], .deterministic)) "a" "b" "doc" "doc" ["x", "y"] 1
      .deterministic (by decide) rfl rfl (by simp) (fun c _ => ⟨[1], rfl, rfl⟩)
      (by decide)⟩

/-! ### C9 -/

/-- One chunk whose `embedText` call throws is absorbed: the error is
caught, the skip counter incremented, the store untouched — whether or not
the chunk's hash was already known (the hash check runs first). -/
theorem indexChunk_embed_error_skip (hashText : String → String)
    (embed : String → Except String (List ℝ × EmbeddingMode)) (sourceName : String)
    (store : Rag.VectorStore) (stats : Rag.IndexStats) (i : Nat) (c : String)
    (err : String) (herr : embed c = .error err) :
    Rag.indexChunk hashText embed sourceName (store, stats) i c =
      .ok (store, ⟨stats.indexed, stats.skipped + 1⟩) := by
  by_cases hmem : hashText c ∈ store.hashes
  · exact Rag.indexChunk_known hashText embed sourceName store stats i c hmem
  · unfold Rag.indexChunk
    dsimp only
    rw [if_neg hmem, herr]

/-- The chunk loop splits over list append: processing `pre ++ rest` is
processing `pre`, then `rest` from the state `pre` reached (errors cut the
loop short). -/
theorem indexChunks_append (hashText : String → String)
    (embed : String → Except String (List ℝ × EmbeddingMode)) (sourceName : String)
    (pre : List (Nat × String)) :
    ∀ (rest : List (Nat × String)) (st : Rag.VectorStore × Rag.IndexStats),
    Rag.indexChunks hashText embed sourceName st (pre ++ rest) =
      match Rag.indexChunks hashText embed sourceName st pre with
      | .ok st1 => Rag.indexChunks hashText embed sourceName st1 rest
      | .error e => .error e := by
  induction pre with
  | nil =>
    intro rest st
    obtain ⟨store, stats⟩ := st
    rw [List.nil_append, Rag.indexChunks]
  | cons p pre ih =>
    intro rest st
    obtain ⟨i, c⟩ := p
    obtain ⟨store, stats⟩ := st
    rw [List.cons_append]
    simp only [Rag.indexChunks]
    rcases hstep : Rag.indexChunk hashText embed sourceName (store, stats) i c with e | st1
    · rfl
    · dsimp only
      exact ih rest st1

/-- C9: per-source and per-chunk failures are isolated. A chunk whose
embedding call throws is skipped — store unchanged, skip counter
incremented — and the chunk loop continues with the remaining chunks from
that state, never aborting the batch; a parse failure on one source
likewise only increments the skip counter; hence indexing three sources
where the second fails to parse, from an empty store, succeeds with
`skipped ≥ 1` and `indexed` equal to the total number of distinct-hash
chunks of the other two sources. -/
theorem indexSources_batch_isolation :
    (∀ (hashText : String → String)
      (embed : String → Except String (List ℝ × EmbeddingMode))
      (sourceName : String) (store : Rag.VectorStore) (stats : Rag.IndexStats)
      (i : Nat) (c : String) (err : String),
      embed c = .error err →
      Rag.indexChunk hashText embed sourceName (store, stats) i c =
        .ok (store, ⟨stats.indexed, stats.skipped + 1⟩))
    ∧ (∀ (hashText : String → String)
      (embed : String → Except String (List ℝ × EmbeddingMode))
      (sourceName : String) (pre : List (Nat × String)) (store : Rag.VectorStore)
      (stats : Rag.IndexStats) (S : Rag.VectorStore) (stats1 : Rag.IndexStats)
      (i : Nat) (c : String) (post : List (Nat × String)) (err : String),
      Rag.indexChunks hashText embed sourceName (store, stats) pre = .ok (S, stats1) →
      embed c = .error err →
      Rag.indexChunks hashText embed sourceName (store, stats) (pre ++ (i, c) :: post) =
        Rag.indexChunks hashText embed sourceName (S, ⟨stats1.indexed, stats1.skipped + 1⟩)
          post)
    ∧ (∀ (hashText : String → String)
      (parse : String → Except String (String × List String))
      (embed : String → Except String (List ℝ × EmbeddingMode))
      (s1 s2 s3 name1 name3 err : String) (C1 C3 : List String) (d : Nat)
      (m : EmbeddingMode),
      parse s1 = .ok (name1, C1) →
      parse s2 = .error err →
      parse s3 = .ok (name3, C3) →
      (C1 ++ C3).Pairwise (fun a b => hashText a ≠ hashText b) →
      (∀ c ∈ C1 ++ C3, ∃ v, embed c = .ok (v, m) ∧ v.length = d) →
      0 < d →
      ∃ store' stats,
        Rag.indexSources hashText parse embed Rag.emptyVectorStore [s1, s2, s3] =
          .ok (store', stats, store'.mode)
        ∧ stats.indexed = C1.length + C3.length
        ∧ 1 ≤ stats.skipped) := by
  refine ⟨?_, ?_, ?_⟩
  · intro hashText embed sourceName store stats i c err herr
    exact indexChunk_embed_error_skip hashText embed sourceName store stats i c err herr
  · intro hashText embed sourceName pre store stats S stats1 i c post err h1 herr
    rw [indexChunks_append hashText embed sourceName pre ((i, c) :: post) (store, stats), h1]
    dsimp only
    rw [Rag.indexChunks,
      indexChunk_embed_error_skip hashText embed sourceName S stats1 i c err herr]
  · intro hashText parse embed s1 s2 s3 name1 name3 err C1 C3 d m hp1 hp2 hp3 hpw hemb hd

    rcases List.pairwise_append.mp hpw with ⟨hpw1, hpw3, hcross⟩
    obtain ⟨store1, recs1, heq1, hmeta1, hrecs1, hhash1, hnil1, hlock1⟩ :=
      Rag.indexChunks_fresh_unlocked hashText embed name1 d m C1.enum
        Rag.emptyVectorStore ⟨0, 0⟩ rfl hd
        (by intro p _; simp [Rag.emptyVectorStore])
        (pairwise_enum _ C1 hpw1)
        (fun p hp => hemb p.2 (List.mem_append.mpr (Or.inl (snd_mem_of_mem_enum C1 p hp))))
    have hsrc1 : Rag.indexSource hashText parse embed (Rag.emptyVectorStore, ⟨0, 0⟩) s1 =
        .ok (store1, ⟨C1.length, 0⟩) := by
      unfold Rag.indexSource
      rw [hp1]
      dsimp only
      rw [heq1]
      simp [List.enum_length]
    have hsrc2 : Rag.indexSource hashText parse embed (store1, ⟨C1.length, 0⟩) s2 =
        .ok (store1, ⟨C1.length, 1⟩) := by
      unfold Rag.indexSource
      rw [hp2]
    have hfresh3 : ∀ p ∈ C3.enum, hashText p.2 ∉ store1.hashes := by
      intro p hp hmem
      rw [hhash1] at hmem
      simp only [Rag.emptyVectorStore, List.nil_append] at hmem
      obtain ⟨q, hq, hqeq⟩ := List.mem_map.mp hmem
      exact hcross q.2 (snd_mem_of_mem_enum C1 q hq) p.2 (snd_mem_of_mem_enum C3 p hp) hqeq
    by_cases hC1 : C1 = []
    · subst hC1
      have hstore1 : store1 = Rag.emptyVectorStore := hnil1 rfl
      subst hstore1
      obtain ⟨store3, recs3, heq3, _, _, _, _, _⟩ :=
        Rag.indexChunks_fresh_unlocked hashText embed name3 d m C3.enum
          Rag.emptyVectorStore ⟨0, 1⟩ rfl hd
          (by intro p _; simp [Rag.emptyVectorStore])
          (pairwise_enum _ C3 hpw3)
          (fun p hp => hemb p.2 (List.mem_append.mpr (Or.inr (snd_mem_of_mem_enum C3 p hp))))
      have hsrc3 : Rag.indexSource hashText parse embed (Rag.emptyVectorStore, ⟨0, 1⟩) s3 =
          .ok (store3, ⟨C3.length, 1⟩) := by
        unfold Rag.indexSource
        rw [hp3]
        dsimp only
        rw [heq3]
        simp [List.enum_length]
      have hcore : Rag.indexSourcesCore hashText parse embed
          (Rag.emptyVectorStore, ⟨0, 0⟩) [s1, s2, s3] = .ok (store3, ⟨C3.length, 1⟩) := by
        rw [Rag.indexSourcesCore, hsrc1]
        dsimp only
        rw [Rag.indexSourcesCore, hsrc2]
        dsimp only
        simp only [List.length_nil]
        rw [Rag.indexSourcesCore, hsrc3]
        dsimp only
        rw [Rag.indexSourcesCore]
      exact ⟨store3, ⟨C3.length, 1⟩,
        Rag.indexSources_ok_of_core _ _ _ _ _ _ _ hcore, by simp, le_refl 1⟩
    · have henne : C1.enum ≠ [] := by
        intro h
        apply hC1
        have := congrArg List.length h
        rw [List.enum_length] at this
        exact List.length_eq_zero.mp this
      obtain ⟨hdim1, hmode1, idx1, hidx1, _, _⟩ := hlock1 henne
      obtain ⟨store3, idx3, recs3, heq3, _, _, _, _, _, _, _, _⟩ :=
        Rag.indexChunks_all_fresh hashText embed name3 d m C3.enum
          store1 ⟨C1.length, 1⟩ idx1 hidx1 hdim1 hmode1 hd hfresh3
          (pairwise_enum _ C3 hpw3)
          (fun p hp => hemb p.2 (List.mem_append.mpr (Or.inr (snd_mem_of_mem_enum C3 p hp))))
      have hsrc3 : Rag.indexSource hashText parse embed (store1, ⟨C1.length, 1⟩) s3 =
          .ok (store3, ⟨C1.length + C3.length, 1⟩) := by
        unfold Rag.indexSource
        rw [hp3]
        dsimp only
        rw [heq3]
        simp [List.enum_length]
      have hcore : Rag.indexSourcesCore hashText parse embed
          (Rag.emptyVectorStore, ⟨0, 0⟩) [s1, s2, s3] =
          .ok (store3, ⟨C1.length + C3.length, 1⟩) := by
        rw [Rag.indexSourcesCore, hsrc1]
        dsimp only
        rw [Rag.indexSourcesCore, hsrc2]
        dsimp only
        rw [Rag.indexSourcesCore, hsrc3]
        dsimp only
        rw [Rag.indexSourcesCore]
      exact ⟨store3, ⟨C1.length + C3.length, 1⟩,
        Rag.indexSources_ok_of_core _ _ _ _ _ _ _ hcore, rfl, le_refl 1⟩

/-- C9 witness: an embedding failure on a concrete chunk is skipped and
the loop continues with the next chunk; and three sources with the middle
one unparseable index the other two's chunks with `indexed = 2`,
`skipped = 1`. -/
theorem indexSources_batch_isolation_witness :
    (Rag.indexChunk (fun s => s) (fun _ => .error "fail") "doc"
        (Rag.emptyVectorStore, ⟨0, 0⟩) 0 "c" = .ok (Rag.emptyVectorStore, ⟨0, 1⟩))
    ∧ (Rag.indexChunks (fun s => s) (fun _ => .error "fail") "doc"
        (Rag.emptyVectorStore, ⟨0, 0⟩) ([] ++ (0, "c") :: [(1, "g")]) =
      Rag.indexChunks (fun s => s) (fun _ => .error "fail") "doc"
        (Rag.emptyVectorStore, ⟨0, 1⟩) [(1, "g")])
    ∧ ∃ store' stats,
      Rag.indexSources (fun s => s)
        (fun s => if s = "bad" then .error "boom" else
          if s = "one" then .ok ("one", ["x"]) else .ok ("three", ["y"]))
        (fun _ => .ok ([(1 : ℝ)], .deterministic))
        Rag.emptyVectorStore ["one", "bad", "three"] =
        .ok (store', stats, store'.mode)
      ∧ stats.indexed = 1 + 1
      ∧ 1 ≤ stats.skipped :=
  ⟨indexSources_batch_isolation.1 (fun s => s) (fun _ => .error "fail") "doc"
      Rag.emptyVectorStore ⟨0, 0⟩ 0 "c" "fail" rfl,
    indexSources_batch_isolation.2.1 (fun s => s) (fun _ => .error "fail") "doc"
      [] Rag.emptyVectorStore ⟨0, 0⟩ Rag.emptyVectorStore ⟨0, 0⟩ 0 "c" [(1, "g")] "fail"
      (by rw [Rag.indexChunks]) rfl,
    indexSources_batch_isolation.2.2 (fun s => s)
      (fun s => if s = "bad" then .error "boom" else
        if s = "one" then .ok ("one", ["x"]) else .ok ("three", ["y"]))
      (fun _ => .ok ([(1 : ℝ)], .deterministic))
      "one" "bad" "three" "one" "three" "boom" ["x"] ["y"] 1 .deterministic
      (by simp) (by simp) (by simp) (by simp)
      (fun c _ => ⟨[1], rfl, rfl⟩) (by decide)⟩

/-! ### C1 -/

/-- A chunk that embeds to an empty vector is skipped (the
`if (!vector.length)` guard), even when the store is locked to a non-zero
dimension — it never reaches the mismatch check. -/
theorem indexChunk_empty_vector_skip (hashText : String → String)
    (embed : String → Except String (List ℝ × EmbeddingMode)) (sourceName : String)
    (store : Rag.VectorStore) (stats : Rag.IndexStats) (i : Nat) (c : String)
    (m : EmbeddingMode)
    (hfresh : hashText c ∉ store.hashes)
    (hv : embed c = .ok ([], m)) :
    Rag.indexChunk hashText embed sourceName (store, stats) i c =
      .ok (store, ⟨stats.indexed, stats.skipped + 1⟩) := by
  unfold Rag.indexChunk
  dsimp only
  rw [if_neg hfresh, hv]
  dsimp only
  rw [if_pos (show ([] : List ℝ).length = 0 from rfl)]

/-- C1 (amended): once the store holds an index, it is locked to one
(dimension, mode) pair. The first chunk embedded into an empty store with a
non-empty vector creates the index and locks dimension and mode to that
vector's; every subsequently embedded chunk with a non-empty vector whose
dimension or mode differs makes `indexChunk` throw, and the throw
propagates through the chunk loop and the source loop, failing the whole
`indexSources` call. (The claim as stated, covering every differing
vector, is refuted by `indexSources_mode_lock_cex`: a chunk embedding to
an empty vector — dimension 0, necessarily different from the locked
dimension — is skipped instead of failing the call.) -/
theorem indexSources_mode_lock :
    (∀ (hashText : String → String)
      (embed : String → Except String (List ℝ × EmbeddingMode))
      (sourceName : String) (store : Rag.VectorStore) (stats : Rag.IndexStats)
      (i : Nat) (c : String) (v : List ℝ) (m : EmbeddingMode),
      store.index = none →
      hashText c ∉ store.hashes →
      embed c = .ok (v, m) →
      v.length ≠ 0 →
      ∃ store',
        Rag.indexChunk hashText embed sourceName (store, stats) i c =
          .ok (store', ⟨stats.indexed + 1, stats.skipped⟩)
        ∧ store'.dimension = (v.length : ℤ)
        ∧ store'.mode = m
        ∧ store'.metadata.length = store.metadata.length + 1)
    ∧ (∀ (hashText : String → String)
      (embed : String → Except String (List ℝ × EmbeddingMode))
      (sourceName : String) (store : Rag.VectorStore) (stats : Rag.IndexStats)
      (idx : Rag.FaissIndex) (i : Nat) (c : String) (v : List ℝ) (m : EmbeddingMode),
      store.index = some idx →
      hashText c ∉ store.hashes →
      embed c = .ok (v, m) →
      v.length ≠ 0 →
      ((v.length : ℤ) ≠ store.dimension ∨ m ≠ store.mode) →
      ∃ e, Rag.indexChunk hashText embed sourceName (store, stats) i c =
        .error (e, store))
    ∧ (∀ (hashText : String → String)
      (embed : String → Except String (List ℝ × EmbeddingMode))
      (sourceName : String) (pre : List (Nat × String)) (store : Rag.VectorStore)
      (stats : Rag.IndexStats) (S : Rag.VectorStore) (stats1 : Rag.IndexStats)
      (bi : Nat) (bc : String) (post : List (Nat × String)) (e : String × Rag.VectorStore),
      Rag.indexChunks hashText embed sourceName (store, stats) pre = .ok (S, stats1) →
      Rag.indexChunk hashText embed sourceName (S, stats1) bi bc = .error e →
      Rag.indexChunks hashText embed sourceName (store, stats)
        (pre ++ (bi, bc) :: post) = .error e)
    ∧ (∀ (hashText : String → String)
      (parse : String → Except String (String × List String))
      (embed : String → Except String (List ℝ × EmbeddingMode))
      (store0 : Rag.VectorStore) (pre : List String) (s : String) (post : List String)
      (S : Rag.VectorStore) (stats1 : Rag.IndexStats) (e : String × Rag.VectorStore),
      Rag.indexSourcesCore hashText parse embed (store0, ⟨0, 0⟩) pre = .ok (S, stats1) →
      Rag.indexSource hashText parse embed (S, stats1) s = .error e →
      Rag.indexSources hashText parse embed store0 (pre ++ s :: post) = .error e) := by
  refine ⟨?_, ?_, ?_, ?_⟩
  · intro hashText embed sourceName store stats i c v m hidx hfresh hv hvne
    rw [Rag.indexChunk_fresh_unlocked hashText embed sourceName store stats i c v m
      hidx hfresh hv hvne]
    exact ⟨_, rfl, rfl, rfl, by simp⟩
  · intro hashText embed sourceName store stats idx i c v m hidx hfresh hv hvne hor
    unfold Rag.indexChunk
    dsimp only
    rw [if_neg hfresh, hv]
    dsimp only
    rw [if_neg hvne, hidx]
    dsimp only
    by_cases h5 : (v.length : ℤ) ≠ store.dimension
    · rw [if_pos h5]
      exact ⟨_, rfl⟩
    · rcases hor with h6 | h6
      · exact absurd h6 h5
      · rw [if_neg h5, if_pos h6]
        exact ⟨_, rfl⟩
  · intro hashText embed sourceName pre store stats S stats1 bi bc post e h1 h2
    exact Rag.indexChunks_propagates hashText embed sourceName pre store stats S stats1
      bi bc post e h1 h2
  · intro hashText parse embed store0 pre s post S stats1 e h1 h2
    exact Rag.indexSources_error_of_core hashText parse embed store0 (pre ++ s :: post) e
      (Rag.indexSourcesCore_propagates hashText parse embed pre store0 ⟨0, 0⟩ S stats1
        s post e h1 h2)

/-- C1 witness: a store locked to dimension 1 receives a fresh chunk whose
vector has dimension 2 — `indexChunk` throws, carrying the store. -/
theorem indexSources_mode_lock_witness :
    ∃ e, Rag.indexChunk (fun s => s) (fun _ => .ok ([(1 : ℝ), 0], .deterministic))
      "doc" (⟨some ⟨1, []⟩, [], 1, .deterministic, []⟩, ⟨0, 0⟩) 0 "a" =
      .error (e, ⟨some ⟨1, []⟩, [], 1, .deterministic, []⟩) :=
  indexSources_mode_lock.2.1 (fun s => s)
    (fun _ => .ok ([(1 : ℝ), 0], .deterministic)) "doc"
    ⟨some ⟨1, []⟩, [], 1, .deterministic, []⟩ ⟨0, 0⟩ ⟨1, []⟩ 0 "a"
    [(1 : ℝ), 0] .deterministic rfl (by simp) rfl (by simp)
    (Or.inl (by simp))

def cexParse : String → Except String (String × List String) :=
  fun _ => .ok ("doc", ["a", "b"])

noncomputable def cexEmbed : String → Except String (List ℝ × EmbeddingMode) :=
  fun c => if c = "a" then .ok ([1], .deterministic) else .ok ([], .deterministic)

/-- The store after the C1 counterexample run: one record, locked to
dimension 1, deterministic mode. -/
noncomputable def cexStore : Rag.VectorStore :=
  { index := some ⟨1, [normalizeEmbedding [1]]⟩,
    metadata := [⟨0, "doc", 0, "a", "a"⟩],
    dimension := 1,
    mode := .deterministic,
    hashes := ["a"] }

/-- C1 counterexample: with the store locked to dimension 1 by chunk "a",
chunk "b" embeds (successfully) to the empty vector — dimension 0, which
differs from the locked dimension — yet the whole `indexSources` call
returns successfully with `indexed = 1, skipped = 1` instead of failing. -/
theorem indexSources_mode_lock_cex :
    cexEmbed "b" = .ok ([], .deterministic)
    ∧ ((([] : List ℝ).length : ℤ) ≠ cexStore.dimension)
    ∧ Rag.indexSources (fun s => s) cexParse cexEmbed Rag.emptyVectorStore ["s"] =
        .ok (cexStore, ⟨1, 1⟩, cexStore.mode) := by
  refine ⟨by simp [cexEmbed], by simp [cexStore], ?_⟩
  have hstep1 : Rag.indexChunk (fun s => s) cexEmbed "doc"
      (Rag.emptyVectorStore, ⟨0, 0⟩) 0 "a" = .ok (cexStore, ⟨1, 0⟩) := by
    rw [Rag.indexChunk_fresh_unlocked (fun s => s) cexEmbed "doc"
      Rag.emptyVectorStore ⟨0, 0⟩ 0 "a" [1] .deterministic rfl
      (by simp [Rag.emptyVectorStore]) (by simp [cexEmbed]) (by simp)]
    simp [cexStore, Rag.emptyVectorStore]
  have hstep2 : Rag.indexChunk (fun s => s) cexEmbed "doc"
      (cexStore, ⟨1, 0⟩) 1 "b" = .ok (cexStore, ⟨1, 1⟩) :=
    indexChunk_empty_vector_skip (fun s => s) cexEmbed "doc" cexStore ⟨1, 0⟩ 1 "b"
      .deterministic (by simp [cexStore]) (by simp [cexEmbed])
  have henum : (["a", "b"] : List String).enum = [(0, "a"), (1, "b")] := by decide
  have hcore : Rag.indexSourcesCore (fun s => s) cexParse cexEmbed
      (Rag.emptyVectorStore, ⟨0, 0⟩) ["s"] = .ok (cexStore, ⟨1, 1⟩) := by
    rw [Rag.indexSourcesCore]
    have hsrc : Rag.indexSource (fun s => s) cexParse cexEmbed
        (Rag.emptyVectorStore, ⟨0, 0⟩) "s" = .ok (cexStore, ⟨1, 1⟩) := by
      unfold Rag.indexSource cexParse
      dsimp only
      rw [henum, Rag.indexChunks, hstep1]
      dsimp only
      rw [Rag.indexChunks, hstep2]
      dsimp only
      rw [Rag.indexChunks]
    rw [hsrc]
    dsimp only
    rw [Rag.indexSourcesCore]
  exact Rag.indexSources_ok_of_core _ _ _ _ _ _ _ hcore

/-! ### C3 -/

/-- C3 (amended): on load the persisted index is taken as-is (never
truncated) and the metadata list is truncated to the index's count when it
is longer — so after load its length is `min(persisted records, ntotal)`,
with equality to `ntotal` only when the persisted metadata was at least as
long; and every successful `indexSources` mutation preserves
`len(records) = ntotal`. (The claim that the counts are equal after every
load is refuted by `store_lockstep_cex`: `Array.slice` cannot extend a
metadata list shorter than the index.) -/
theorem store_lockstep :
    (∀ (p : Rag.PersistedMetadataPart) (idx : Rag.FaissIndex),
      (Rag.loadVectorStoreFromDisk (some (some p)) (some (some idx))).index = some idx
      ∧ (Rag.loadVectorStoreFromDisk (some (some p)) (some (some idx))).metadata.length =
          min (p.records.getD []).length idx.vectors.length)
    ∧ (∀ (hashText : String → String)
      (parse : String → Except String (String × List String))
      (embed : String → Except String (List ℝ × EmbeddingMode))
      (store0 : Rag.VectorStore) (sources : List String) (store' : Rag.VectorStore)
      (stats : Rag.IndexStats) (mode : EmbeddingMode),
      Rag.StoreWF store0 →
      Rag.indexSources hashText parse embed store0 sources = .ok (store', stats, mode) →
      Rag.StoreWF store') := by
  constructor
  · intro p idx
    unfold Rag.loadVectorStoreFromDisk
    dsimp only
    constructor
    · rfl
    · by_cases h : idx.vectors.length = (p.records.getD []).length
      · rw [if_neg (by omega)]
        omega
      · rw [if_pos h, List.length_take]
        omega
  · intro hashText parse embed store0 sources store' stats mode hwf h
    unfold Rag.indexSources Rag.indexSourcesRun at h
    rcases hcore : Rag.indexSourcesCore hashText parse embed (store0, ⟨0, 0⟩) sources with
      e | ⟨s1, st1⟩ <;> rw [hcore] at h
    · exact absurd h (by simp)
    · dsimp only at h
      simp only [Except.ok.injEq, Prod.mk.injEq] at h
      obtain ⟨rfl, -, -⟩ := h
      exact Rag.indexSourcesCore_wf hashText parse embed sources store0 ⟨0, 0⟩ s1 st1 hwf hcore

/-- C3 witness: load with two persisted records and a two-vector index
keeps both in lockstep, and an `indexSources` call on a well-formed store
preserves the invariant. -/
theorem store_lockstep_witness :
    ((Rag.loadVectorStoreFromDisk
        (some (some ⟨some 1, some .deterministic,
          some [⟨0, "doc", 0, "t", "h"⟩, ⟨1, "doc", 1, "u", "i"⟩]⟩))
        (some (some ⟨1, [[1], [1]]⟩))).index = some ⟨1, [[1], [1]]⟩
      ∧ (Rag.loadVectorStoreFromDisk
        (some (some ⟨some 1, some .deterministic,
          some [⟨0, "doc", 0, "t", "h"⟩, ⟨1, "doc", 1, "u", "i"⟩]⟩))
        (some (some ⟨1, [[1], [1]]⟩))).metadata.length = min 2 2)
    ∧ Rag.StoreWF (⟨some ⟨1, [[1]]⟩, [⟨0, "s", 0, "t", "h"⟩], 1, .deterministic,
        ["h"]⟩ : Rag.VectorStore) :=
  ⟨store_lockstep.1 ⟨some 1, some .deterministic,
      some [⟨0, "doc", 0, "t", "h"⟩, ⟨1, "doc", 1, "u", "i"⟩]⟩ ⟨1, [[1], [1]]⟩,
    store_lockstep.2 (fun s => s) (fun _ => .error "none") (fun _ => .error "none")
      ⟨some ⟨1, [[1]]⟩, [⟨0, "s", 0, "t", "h"⟩], 1, .deterministic, ["h"]⟩ []
      ⟨some ⟨1, [[1]]⟩, [⟨0, "s", 0, "t", "h"⟩], 1, .deterministic, ["h"]⟩ ⟨0, 0⟩
      .deterministic (by exact rfl) rfl⟩

/-- C3 counterexample: persisted metadata with 1 record but a 3-vector
index: the load truncation (`metadata.slice(0, total)`) cannot extend the
metadata, so after load the store has 1 record against `ntotal() = 3` —
the counts are not equal and the invariant fails. -/
theorem store_lockstep_cex :
    (Rag.loadVectorStoreFromDisk
        (some (some ⟨some 1, some .deterministic, some [⟨0, "doc", 0, "t", "h"⟩]⟩))
        (some (some ⟨1, [[1], [1], [1]]⟩))).index = some ⟨1, [[1], [1], [1]]⟩
    ∧ (Rag.loadVectorStoreFromDisk
        (some (some ⟨some 1, some .deterministic, some [⟨0, "doc", 0, "t", "h"⟩]⟩))
        (some (some ⟨1, [[1], [1], [1]]⟩))).metadata.length = 1
    ∧ ¬ Rag.StoreWF (Rag.loadVectorStoreFromDisk
        (some (some ⟨some 1, some .deterministic, some [⟨0, "doc", 0, "t", "h"⟩]⟩))
        (some (some ⟨1, [[1], [1], [1]]⟩))) := by
  have hload : Rag.loadVectorStoreFromDisk
      (some (some ⟨some 1, some .deterministic, some [⟨0, "doc", 0, "t", "h"⟩]⟩))
      (some (some ⟨1, [[1], [1], [1]]⟩)) =
      ⟨some ⟨1, [[1], [1], [1]]⟩, [⟨0, "doc", 0, "t", "h"⟩], 1, .deterministic, ["h"]⟩ := by
    rfl
  rw [hload]
  refine ⟨rfl, rfl, ?_⟩
  intro hwf
  unfold Rag.StoreWF at hwf
  simp at hwf

/-! ### C10 -/

/-- C10: `indexSources` performs its durable write at most once per call,
only after all sources have been processed: a successful call writes the
final store exactly once, and a call that throws writes nothing — while
the in-memory store carried by the error retains every record appended
before the failure (its metadata extends the initial store's). -/
theorem indexSources_single_flush
    (hashText : String → String)
    (parse : String → Except String (String × List String))
    (embed : String → Except String (List ℝ × EmbeddingMode))
    (store0 : Rag.VectorStore) (sources : List String) :
    (∀ store' stats mode,
      (Rag.indexSourcesRun hashText parse embed store0 sources).1 =
        .ok (store', stats, mode) →
      (Rag.indexSourcesRun hashText parse embed store0 sources).2 = [store'])
    ∧ (∀ e store',
      (Rag.indexSourcesRun hashText parse embed store0 sources).1 =
        .error (e, store') →
      (Rag.indexSourcesRun hashText parse embed store0 sources).2 = []
      ∧ ∃ extra, store'.metadata = store0.metadata ++ extra) := by
  unfold Rag.indexSourcesRun
  rcases hcore : Rag.indexSourcesCore hashText parse embed (store0, ⟨0, 0⟩) sources with
    ⟨msg, st⟩ | ⟨s1, st1⟩
  · constructor
    · intro store' stats mode h
      exact absurd h (by simp)
    · intro e store' h
      dsimp only at h ⊢
      injection h with h
      injection h with hmsg hstore
      exact ⟨rfl, hstore ▸ (Rag.indexSourcesCore_extends hashText parse embed sources
        store0 ⟨0, 0⟩).2 msg st hcore⟩
  · constructor
    · intro store' stats mode h
      dsimp only at h ⊢
      simp only [Except.ok.injEq, Prod.mk.injEq] at h
      obtain ⟨rfl, -, -⟩ := h
      rfl
    · intro e store' h
      exact absurd h (by simp)

def c10Store : Rag.VectorStore :=
  { index := some ⟨1, []⟩, metadata := [], dimension := 1, mode := .deterministic,
    hashes := [] }

/-- C10 witness: the empty batch flushes the (unchanged) store exactly
once, and a batch that hits a dimension mismatch on its first chunk writes
nothing while the error carries the store with its metadata intact. -/
theorem indexSources_single_flush_witness :
    ((Rag.indexSourcesRun (fun s => s) (fun _ => .error "x") (fun _ => .error "x")
        Rag.emptyVectorStore []).2 = [Rag.emptyVectorStore])
    ∧ ((Rag.indexSourcesRun (fun s => s) (fun _ => .ok ("doc", ["a"]))
        (fun _ => .ok ([(1 : ℝ), 0], .deterministic)) c10Store ["s"]).2 = []
      ∧ ∃ extra, c10Store.metadata = c10Store.metadata ++ extra) := by
  constructor
  · exact (indexSources_single_flush (fun s => s) (fun _ => .error "x")
      (fun _ => .error "x") Rag.emptyVectorStore []).1 Rag.emptyVectorStore ⟨0, 0⟩
      Rag.emptyVectorStore.mode rfl
  · have hchunk : Rag.indexChunk (fun s => s)
        (fun _ => .ok ([(1 : ℝ), 0], .deterministic)) "doc" (c10Store, ⟨0, 0⟩) 0 "a" =
        .error ("Embedding dimension mismatch. Clear the vector store directory and re-index.",
          c10Store) := by
      unfold Rag.indexChunk
      dsimp only
      rw [if_neg (by simp [c10Store]), if_neg (by simp),
        show c10Store.index = some ⟨1, []⟩ from rfl]
      dsimp only
      rw [if_pos (by simp [c10Store])]
    have hcore : Rag.indexSourcesCore (fun s => s) (fun _ => .ok ("doc", ["a"]))
        (fun _ => .ok ([(1 : ℝ), 0], .deterministic)) (c10Store, ⟨0, 0⟩) ["s"] =
        .error ("Embedding dimension mismatch. Clear the vector store directory and re-index.",
          c10Store) := by
      rw [Rag.indexSourcesCore]
      have hsrc : Rag.indexSource (fun s => s) (fun _ => .ok ("doc", ["a"]))
          (fun _ => .ok ([(1 : ℝ), 0], .deterministic)) (c10Store, ⟨0, 0⟩) "s" =
          .error ("Embedding dimension mismatch. Clear the vector store directory and re-index.",
            c10Store) := by
        unfold Rag.indexSource
        dsimp only
        rw [show (["a"] : List String).enum = [(0, "a")] from rfl,
          Rag.indexChunks, hchunk]
      rw [hsrc]
    have h1 : (Rag.indexSourcesRun (fun s => s) (fun _ => .ok ("doc", ["a"]))
        (fun _ => .ok ([(1 : ℝ), 0], .deterministic)) c10Store ["s"]).1 =
        .error ("Embedding dimension mismatch. Clear the vector store directory and re-index.",
          c10Store) := by
      unfold Rag.indexSourcesRun
      rw [hcore]
    exact (indexSources_single_flush (fun s => s) (fun _ => .ok ("doc", ["a"]))
      (fun _ => .ok ([(1 : ℝ), 0], .deterministic)) c10Store ["s"]).2
      "Embedding dimension mismatch. Clear the vector store directory and re-index."
      c10Store h1

/-! ### C5 -/

/-- C5 (amended): the lexical boost adds a flat `+0.05` per occurrence of a
query term in the term list that is a lowercase substring of the
candidate's text — `0.05` times the number of matching term occurrences.
The term list is not deduplicated, so a term appearing several times in the
query contributes once per appearance, not at most once (refuted by
`keywordBoost_duplicate_term`). -/
theorem keywordBoost_per_occurrence (terms : List String) (text : String) :
    keywordBoost terms text =
      (0.05 : ℝ) * ((terms.filter fun t => jsIncludes (jsToLower text) t).length : ℝ) := by
  have key : ∀ (ts : List String) (a : ℝ),
      ts.foldl (fun acc term =>
        acc + if jsIncludes (jsToLower text) term then (0.05 : ℝ) else 0) a =
      a + (0.05 : ℝ) * ((ts.filter fun t => jsIncludes (jsToLower text) t).length : ℝ) := by
    intro ts
    induction ts with
    | nil => intro a; simp
    | cons t ts ih =>
      intro a
      rw [List.foldl_cons, ih]
      by_cases h : jsIncludes (jsToLower text) t
      · rw [if_pos h, List.filter_cons_of_pos (by simpa using h), List.length_cons]
        push_cast
        ring
      · rw [if_neg h, List.filter_cons_of_neg (by simpa using h)]
        ring
  rw [keywordBoost, key]
  ring

/-- C5 counterexample: the query `"apple apple"` produces the term list
`["apple", "apple"]`, and a candidate containing `"apple"` receives a boost
of `0.10`, not at most `0.05` per distinct term: a repeated query term is
counted once per occurrence. -/
theorem keywordBoost_duplicate_term :
    queryTerms "apple apple" = ["apple", "apple"]
    ∧ keywordBoost (queryTerms "apple apple") "apple pie" = 1 / 10
    ∧ (1 / 10 : ℝ) ≠ 0.05 := by
  have hterms : queryTerms "apple apple" = ["apple", "apple"] := by decide
  have hinc : jsIncludes (jsToLower "apple pie") "apple" = true := by decide
  refine ⟨hterms, ?_, by norm_num⟩
  rw [hterms, keywordBoost]
  simp only [List.foldl_cons, List.foldl_nil, hinc, if_true]
  norm_num

/-! ### C4 -/

/-- C4: every successful `queryIndex` result (library module) is sorted by
boosted score descending and truncated to at most `k` entries, and on the
deterministic keyword+cosine fallback path (`src/unnamed/part_001`) the
result is additionally thresholded: every returned match has score
strictly greater than `0.01`. -/
theorem queryIndex_sorted_truncated_threshold :
    (∀ (store : Rag.VectorStore) (embedRes : Except String (List ℝ × EmbeddingMode))
      (search : List ℝ → Nat → List (Int × ℝ)) (query : String) (k : Nat)
      (ms : List RagMatch),
      Rag.queryIndex store embedRes search query k = .ok ms →
      ms.length ≤ k ∧ ms.Pairwise fun a b => b.score ≤ a.score)
    ∧ (∀ (sha512 : String → List Nat) (records : List Fallback.VectorRecord)
      (query : String) (k : Nat),
      (Fallback.queryIndex sha512 records query k).length ≤ k
      ∧ (Fallback.queryIndex sha512 records query k).Pairwise
          (fun a b => b.score ≤ a.score)
      ∧ ∀ m ∈ Fallback.queryIndex sha512 records query k, (0.01 : ℝ) < m.score) := by
  constructor
  · intro store embedRes search query k ms h
    unfold Rag.queryIndex at h
    by_cases h0 : store.index.isNone = true ∨ store.metadata.length = 0
    · rw [if_pos h0] at h
      injection h with h
      subst h
      exact ⟨by simp, by simp⟩
    · rw [if_neg h0] at h
      rcases embedRes with e | ⟨v, em⟩
      · exact absurd h (by simp)
      · dsimp only at h
        by_cases h1 : (v.length : ℤ) ≠ store.dimension
        · rw [if_pos h1] at h
          exact absurd h (by simp)
        · rw [if_neg h1] at h
          injection h with h
          subst h
          refine ⟨List.length_take_le .., ?_⟩
          exact (pairwise_sortByScoreDesc _).sublist (List.take_sublist ..)
  · intro sha512 records query k
    by_cases h : records.length = 0
    · rw [Fallback.queryIndex, if_pos h]
      exact ⟨by simp, by simp, by simp⟩
    · rw [Fallback.queryIndex, if_neg h]
      refine ⟨?_, ?_, ?_⟩
      · exact le_trans (List.length_filter_le ..) (List.length_take_le ..)
      · exact ((pairwise_sortByScoreDesc _).sublist (List.take_sublist ..)).sublist
          (List.filter_sublist ..)
      · intro m hm
        exact of_decide_eq_true (List.mem_filter.mp hm).2

/-- C4 witness: a one-record store with a zero-boost query: the single
match is returned, sorted and within the `k = 5` bound. -/
theorem queryIndex_sorted_truncated_threshold_witness :
    Rag.queryIndex ⟨some ⟨1, [[1]]⟩, [⟨0, "s", 0, "t", "h"⟩], 1, .deterministic, ["h"]⟩
      (.ok ([1], .deterministic)) (fun _ _ => [((0 : Int), (1 : ℝ))]) "" 5 =
        .ok [⟨"s", 0, "t", 1⟩]
    ∧ ([(⟨"s", 0, "t", 1⟩ : RagMatch)].length ≤ 5
      ∧ List.Pairwise (fun a b : RagMatch => b.score ≤ a.score)
          [(⟨"s", 0, "t", 1⟩ : RagMatch)]) := by
  have hterms : queryTerms "" = [] := by decide
  have heval : Rag.queryIndex
      ⟨some ⟨1, [[1]]⟩, [⟨0, "s", 0, "t", "h"⟩], 1, .deterministic, ["h"]⟩
      (.ok ([1], .deterministic)) (fun _ _ => [((0 : Int), (1 : ℝ))]) "" 5 =
        .ok [⟨"s", 0, "t", 1⟩] := by
    unfold Rag.queryIndex
    simp [hterms, keywordBoost, sortByScoreDesc, insertByScoreDesc, Rag.jsIsFinite]
  exact ⟨heval, queryIndex_sorted_truncated_threshold.1 _ _ _ "" 5 _ heval⟩

end Wled
